import Mathlib

set_option linter.unusedVariables false

/-! # Verification of lychee's base-resolution and URL-mapping engine

This development shallowly embeds the Rust sources
`lychee-lib/src/utils/url.rs`, `lychee-lib/src/types/url_mapping.rs`,
`lychee-lib/src/types/base_info.rs` and
`lychee-lib/src/types/uri/relative.rs`.

URLs are modelled structurally (scheme, host, port, path segments, query,
fragment).  The `url` crate primitives (`Url::parse`, `Url::join`,
`Url::make_relative`, `Url::set_host`) are modelled by a character-level
WHATWG-style parser and resolver restricted to the canonical inputs the
claims quantify over: no percent-encoding, no userinfo, no backslash
separators, no Windows drive letters, and ASCII-whitespace trimming as in
Rust's `str::trim_ascii`. -/

/-- A parsed URL, modelling the `url` crate's `Url`.  `path` is the list of
path segments: the path `/a/b/` is `["a", "b", ""]` and the path `/` is
`[""]`.  `cannotBeABase` models `Url::cannot_be_a_base` (a non-special
scheme with an opaque path; such a URL stores its opaque path text as a
single pseudo-segment).  A `file:` URL with an empty authority has
`host = some ""`. -/
structure Url where
  scheme : String
  host : Option String
  port : Option Nat
  path : List String
  query : Option String
  fragment : Option String
  cannotBeABase : Bool
deriving DecidableEq

/-- The `url` crate's `ParseError` (only the variants reachable in the
model; `Unsupported` stands for inputs outside the modelled canonical
grammar). -/
inductive ParseError where
  | RelativeUrlWithoutBase
  | EmptyHost
  | InvalidPort
  | SetHostOnCannotBeABaseUrl
  | Unsupported
deriving DecidableEq

instance {ε α : Type} [DecidableEq ε] [DecidableEq α] : DecidableEq (Except ε α) := fun a b =>
  match a, b with
  | .error x, .error y =>
    if h : x = y then .isTrue (h ▸ rfl) else .isFalse (fun he => h (Except.error.inj he))
  | .error _, .ok _ => .isFalse (fun he => Except.noConfusion he)
  | .ok _, .error _ => .isFalse (fun he => Except.noConfusion he)
  | .ok x, .ok y =>
    if h : x = y then .isTrue (h ▸ rfl) else .isFalse (fun he => h (Except.ok.inj he))

/-- Rust's `u8::is_ascii_whitespace`: space, tab, LF, FF, CR. -/
def wsChar (c : Char) : Bool :=
  c = ' ' || c = '\t' || c = '\n' || c = '\x0c' || c = '\r'

/-- Strip leading ASCII whitespace (Rust's `str::trim_ascii_start`). -/
def trimStartChars (l : List Char) : List Char := l.dropWhile wsChar

/-- Strip leading and trailing ASCII whitespace: the URL parser's input
trimming. -/
def trimChars (l : List Char) : List Char :=
  ((trimStartChars l).reverse.dropWhile wsChar).reverse

/-- Split at the first occurrence of `c`: the part before it and, when `c`
occurs at all, the part after it. -/
def splitFirst (c : Char) : List Char → List Char × Option (List Char)
  | [] => ([], none)
  | x :: xs =>
    if x = c then ([], some xs)
    else
      let r := splitFirst c xs
      (x :: r.1, r.2)

/-- Split on every occurrence of `c` (like Rust's `str::split`): always at
least one chunk. -/
def splitSegs (c : Char) : List Char → List (List Char)
  | [] => [[]]
  | x :: xs =>
    match splitSegs c xs with
    | [] => [[x]]
    | s :: rest => if x = c then [] :: s :: rest else (x :: s) :: rest

/-- Rust's `[&str]::join("/")`. -/
def joinWithSlash : List String → String
  | [] => ""
  | [s] => s
  | s :: rest => s ++ "/" ++ joinWithSlash rest

/-- Scan a candidate scheme: the characters before a `:`, failing when a
character that cannot occur in a scheme appears before any `:`. -/
def schemeSpanAux : List Char → Option (List Char × List Char)
  | [] => none
  | c :: cs =>
    if c = ':' then some ([], cs)
    else if c.isAlphanum || c = '+' || c = '-' || c = '.' then
      match schemeSpanAux cs with
      | some (a, b) => some (c :: a, b)
      | none => none
    else none

def specialScheme (s : String) : Bool :=
  s = "http" || s = "https" || s = "ws" || s = "wss" || s = "ftp" || s = "file"

/-- WHATWG path resolution: push plain segments, pop on `..` (clamped at
the root), and append an empty segment when the input ends with a dot
segment. -/
def resolveDots (stack : List String) : List String → List String
  | [] => stack
  | [seg] =>
    if seg = ".." then stack.dropLast ++ [""]
    else if seg = "." then stack ++ [""]
    else stack ++ [seg]
  | seg :: rest =>
    if seg = ".." then resolveDots stack.dropLast rest
    else if seg = "." then resolveDots stack rest
    else resolveDots (stack ++ [seg]) rest

/-- Split `l` into path text, query and fragment: the fragment is
everything after the first `#`, the query everything after the first `?`
before that. -/
def splitPathQF (l : List Char) : List Char × Option (List Char) × Option (List Char) :=
  let bh := splitFirst '#' l
  let pq := splitFirst '?' bh.1
  (pq.1, pq.2, bh.2)

def toSegs (l : List Char) : List String := (splitSegs '/' l).map String.mk

def digitsToNat (l : List Char) : Nat := l.foldl (fun n c => n * 10 + (c.toNat - 48)) 0

/-- Parse `host[:port]` up to the first `/`, `?` or `#`; returns the raw
host text, the port, and the rest (still beginning with the path
delimiter, if any). -/
def parseAuthority (l : List Char) : Except ParseError (String × Option Nat × List Char) :=
  let auth := l.takeWhile fun c => !(c = '/' || c = '?' || c = '#')
  let rest := l.dropWhile fun c => !(c = '/' || c = '?' || c = '#')
  match splitFirst ':' auth with
  | (h, none) => .ok (String.mk h, none, rest)
  | (h, some p) =>
    if p = [] then .ok (String.mk h, none, rest)
    else if p.all Char.isDigit then .ok (String.mk h, some (digitsToNat p), rest)
    else .error .InvalidPort

/-- A parsed URL reference: the shapes a link text can take.  Segment
lists are raw (dot segments not yet resolved, except inside an absolute
URL, which is already a fully parsed `Url`). -/
inductive Ref where
  | abs (u : Url)
  | schemeRel (host : String) (port : Option Nat) (segs : List String) (q f : Option String)
  | rootRel (segs : List String) (q f : Option String)
  | pathRel (segs : List String) (q f : Option String)
  | queryFrag (q f : Option String)
deriving DecidableEq

/-- Parse the remainder of an absolute URL after `scheme:`.  The model
requires the canonical `//` form for special schemes. -/
def parseAfterScheme (scheme : String) (rest : List Char) : Except ParseError Url :=
  if specialScheme scheme then
    match rest with
    | '/' :: '/' :: r =>
      match parseAuthority r with
      | .error e => .error e
      | .ok (h, port, r') =>
        if h = "" && scheme ≠ "file" then .error .EmptyHost
        else
          match r' with
          | '/' :: p =>
            let (pp, q, f) := splitPathQF p
            .ok ⟨scheme, some h, port, resolveDots [] (toSegs pp), q.map String.mk,
              f.map String.mk, false⟩
          | _ =>
            let (_, q, f) := splitPathQF r'
            .ok ⟨scheme, some h, port, [""], q.map String.mk, f.map String.mk, false⟩
    | _ => .error .Unsupported
  else
    let (pp, q, f) := splitPathQF rest
    .ok ⟨scheme, none, none, [String.mk pp], q.map String.mk, f.map String.mk, true⟩

/-- The relative-reference forms of the parser: scheme-relative,
root-relative, query-only, fragment-only, empty, or a relative path. -/
def relDispatch (l : List Char) : Except ParseError Ref :=
  match l with
  | [] => .ok (.queryFrag none none)
  | c :: cs =>
    if c = '/' then
      if cs.head? = some '/' then
        match parseAuthority (cs.drop 1) with
        | .error e => .error e
        | .ok (h, port, r') =>
          match r' with
          | '/' :: p =>
            let (pp, q, f) := splitPathQF p
            .ok (.schemeRel h port (toSegs pp) (q.map String.mk) (f.map String.mk))
          | _ =>
            let (_, q, f) := splitPathQF r'
            .ok (.schemeRel h port [""] (q.map String.mk) (f.map String.mk))
      else
        let (pp, q, f) := splitPathQF cs
        .ok (.rootRel (toSegs pp) (q.map String.mk) (f.map String.mk))
    else if c = '?' then
      let qf := splitFirst '#' cs
      .ok (.queryFrag (some (String.mk qf.1)) (qf.2.map String.mk))
    else if c = '#' then .ok (.queryFrag none (some (String.mk cs)))
    else
      let (pp, q, f) := splitPathQF l
      .ok (.pathRel (toSegs pp) (q.map String.mk) (f.map String.mk))

/-- Parse a link text into a `Ref`, modelling the parser underlying
`Url::parse` and `Url::join`. -/
def parseRefChars (input : List Char) : Except ParseError Ref :=
  let l := trimChars input
  let asScheme : Option (String × List Char) :=
    match schemeSpanAux l with
    | some (pre, rest) =>
      match pre with
      | [] => none
      | c :: _ => if c.isAlpha then some (String.mk pre, rest) else none
    | none => none
  match asScheme with
  | some (scheme, rest) =>
    match parseAfterScheme scheme rest with
    | .ok u => .ok (.abs u)
    | .error e => .error e
  | none => relDispatch l

/-- Resolve a parsed reference against a base, modelling `Url::join`'s
resolution step. -/
def joinRef (base : Url) (r : Ref) : Except ParseError Url :=
  match r with
  | .abs u => .ok u
  | .queryFrag none f => .ok { base with fragment := f }
  | .queryFrag (some q) f =>
    if base.cannotBeABase then .error .RelativeUrlWithoutBase
    else .ok { base with query := some q, fragment := f }
  | .rootRel segs q f =>
    if base.cannotBeABase then .error .RelativeUrlWithoutBase
    else .ok ⟨base.scheme, base.host, base.port, resolveDots [] segs, q, f, false⟩
  | .pathRel segs q f =>
    if base.cannotBeABase then .error .RelativeUrlWithoutBase
    else .ok ⟨base.scheme, base.host, base.port, resolveDots base.path.dropLast segs, q, f, false⟩
  | .schemeRel h port segs q f =>
    if base.cannotBeABase then .error .RelativeUrlWithoutBase
    else if h = "" && base.scheme ≠ "file" then .error .EmptyHost
    else .ok ⟨base.scheme, some h, port, resolveDots [] segs, q, f, false⟩

/-- `Url::join`. -/
def Url.join (base : Url) (s : String) : Except ParseError Url :=
  match parseRefChars s.data with
  | .error e => .error e
  | .ok r => joinRef base r

/-- `Url::parse`: only an absolute reference parses without a base. -/
def urlParse (s : String) : Except ParseError Url :=
  match parseRefChars s.data with
  | .ok (.abs u) => .ok u
  | .ok _ => .error .RelativeUrlWithoutBase
  | .error e => .error e

/-- `Url::authority` (the model has no userinfo, so this is just
`host[:port]`; absent authority is the empty string). -/
def Url.authority (u : Url) : String :=
  match u.host with
  | none => ""
  | some h =>
    match u.port with
    | some p => h ++ ":" ++ Nat.repr p
    | none => h

/-- `Url::set_host(Some(h))`. -/
def Url.setHost (u : Url) (h : String) : Except ParseError Url :=
  if u.cannotBeABase then .error .SetHostOnCannotBeABaseUrl
  else .ok { u with host := some h }

/-- Serialization of a `Url` (used in error payloads). -/
def Url.toText (u : Url) : String :=
  let core :=
    if u.cannotBeABase then u.scheme ++ ":" ++ joinWithSlash u.path
    else u.scheme ++ "://" ++ u.authority ++ "/" ++ joinWithSlash u.path
  let core := match u.query with | some q => core ++ "?" ++ q | none => core
  match u.fragment with | some f => core ++ "#" ++ f | none => core

/-- `filename_with_query` from `strictly_relative_to`: the last path
segment (`.` when empty or missing) with the query appended. -/
def filenameWithQuery (u : Url) : String :=
  let filename :=
    match u.path.getLast? with
    | some "" | none => "."
    | some f => f
  match u.query with
  | some q => filename ++ "?" ++ q
  | none => filename

/-- The common-prefix-stripping loop of `strictly_relative_to`: peek both
lists and advance while the heads agree. -/
def stripCommonPre : List String → List String → List String × List String
  | x :: xs, y :: ys => if x = y then stripCommonPre xs ys else (x :: xs, y :: ys)
  | xs, ys => (xs, ys)

def startsWithDotQ (s : String) : Bool :=
  match s.data with
  | '.' :: '?' :: _ => true
  | _ => false

/-- Rust's `str::trim_start_matches('.')`. -/
def trimLeadingDots (s : String) : String := String.mk (s.data.dropWhile fun c => c = '.')

/-- `ReqwestUrlExt::strictly_relative_to` from `utils/url.rs`. -/
def strictlyRelativeTo (self base : Url) (traverseUp : Bool) : Option String :=
  if self.cannotBeABase || base.cannotBeABase || self.scheme ≠ base.scheme
      || self.authority ≠ base.authority || self.port ≠ base.port then none
  else
    let baseFilename := filenameWithQuery base
    let selfFilename := filenameWithQuery self
    let rests := stripCommonPre base.path.dropLast self.path.dropLast
    if !rests.1.isEmpty && !traverseUp then none
    else
      let remaining := rests.1.map (fun _ => "..") ++ rests.2
      let needsFilename := !remaining.isEmpty || selfFilename ≠ baseFilename
      let dotCanBeOmitted := !remaining.isEmpty
      let remaining :=
        if needsFilename then
          remaining ++ [if dotCanBeOmitted && selfFilename = "." then ""
            else if startsWithDotQ selfFilename then trimLeadingDots selfFilename
            else selfFilename]
        else remaining
      let remaining :=
        match remaining with
        | "" :: rest => "./" :: rest
        | r => r
      let rel := joinWithSlash remaining
      some (match self.fragment with
        | some f => rel ++ "#" ++ f
        | none => rel)

/-- Sequential join of `join_rooted`'s loop. -/
def foldJoin (u : Url) : List String → Except ParseError Url
  | [] => .ok u
  | s :: rest =>
    match u.join s with
    | .error e => .error e
    | .ok u' => foldJoin u' rest

/-- `ReqwestUrlExt::join_rooted` from `utils/url.rs`. -/
def Url.joinRooted (base : Url) (subpaths : List String) : Except ParseError Url :=
  let fakeRes : Except ParseError (Option Url) :=
    if base.scheme = "file" then
      match base.join "/.asdjifjdsaiofjdoisa" with
      | .error e => .error e
      | .ok fb =>
        match fb.setHost "secret-lychee-base-url.invalid" with
        | .error e => .error e
        | .ok fb' => .ok (some fb')
    else .ok none
  match fakeRes with
  | .error e => .error e
  | .ok fake =>
    match foldJoin (fake.getD base) subpaths with
    | .error e => .error e
    | .ok url =>
      match fake.bind (fun b => strictlyRelativeTo url b false) with
      | some rel => base.join rel
      | none => .ok url

/-- `ErrorKind` from lychee-lib (the variants this subsystem produces). -/
inductive ErrorKind where
  | ParseUrl (e : ParseError) (text : String)
  | InvalidBase (base : String) (reason : String)
  | InvalidBaseJoin (text : String)
deriving DecidableEq

/-- `Uri`: a thin wrapper holding the final `Url`. -/
structure Uri where
  url : Url
deriving DecidableEq

/-- Modelled from the spec: `Uri::try_from(text)` (not under `src/`)
parses the text as an absolute URL on its own and returns it unchanged,
otherwise fails with a `ParseUrl` error carrying the offending text. -/
def uriTryFrom (text : String) : Except ErrorKind Uri :=
  match urlParse text with
  | .ok u => .ok ⟨u⟩
  | .error e => .error (.ParseUrl e text)

/-- `url::Url::make_relative` (third-party): `..` segments for the
unmatched base directories, then the remaining directories and filename of
`url`, with `url`'s query and fragment appended. -/
def makeRelative (base url : Url) : Option String :=
  if base.cannotBeABase || url.cannotBeABase || base.scheme ≠ url.scheme
      || base.host ≠ url.host || base.port ≠ url.port then none
  else
    let rests := stripCommonPre base.path.dropLast url.path.dropLast
    let urlFilename := (url.path.getLast?).getD ""
    let relative :=
      String.join (rests.1.map (fun _ => "../") ++ rests.2.map (· ++ "/")) ++ urlFilename
    let relative := match url.query with | some q => relative ++ "?" ++ q | none => relative
    some (match url.fragment with | some f => relative ++ "#" ++ f | none => relative)

/-- `SourceBaseInfo` from `types/base_info.rs`. -/
inductive SourceBaseInfo where
  | None
  | NoRoot (u : Url)
  | Full (origin : Url) (path : String)
deriving DecidableEq

/-- `SourceBaseInfo::split_url_origin_and_path`. -/
def splitUrlOriginAndPath (url : Url) : Option (Url × String) :=
  match url.join "/" with
  | .error _ => none
  | .ok origin =>
    match makeRelative origin url with
    | none => none
    | some subpath => some (origin, subpath)

/-- `SourceBaseInfo::from_source_url`. -/
def fromSourceUrl (url : Url) : SourceBaseInfo :=
  if url.scheme = "file" then .NoRoot url
  else
    match splitUrlOriginAndPath url with
    | none => .None
    | some (origin, path) => .Full origin path

/-- `SourceBaseInfo::use_fs_root_as_origin`.  The source `expect`s the
split to succeed; the model keeps `self` in that (unreachable for the
`file:` URLs in use) case. -/
def useFsRootAsOrigin : SourceBaseInfo → SourceBaseInfo
  | .NoRoot url =>
    match splitUrlOriginAndPath url with
    | some (fsRoot, subpath) => .Full fsRoot subpath
    | none => .NoRoot url
  | s => s

def SourceBaseInfo.supportsRootRelative : SourceBaseInfo → Bool
  | .Full _ _ => true
  | _ => false

def SourceBaseInfo.supportsLocallyRelative : SourceBaseInfo → Bool
  | .None => false
  | _ => true

/-- `SourceBaseInfo::or_fallback`. -/
def SourceBaseInfo.orFallback : SourceBaseInfo → SourceBaseInfo → SourceBaseInfo
  | x@(.Full _ _), _ => x
  | _, x@(.Full _ _) => x
  | x@(.NoRoot _), _ => x
  | _, x@(.NoRoot _) => x
  | .None, .None => .None

/-- `SourceBaseInfo::is_root_relative`: after stripping leading ASCII
whitespace, a single leading `/` (not `//`). -/
def isRootRelative (text : String) : Bool :=
  match trimStartChars text.data with
  | '/' :: '/' :: _ => false
  | '/' :: _ => true
  | _ => false

/-- `SourceBaseInfo::parse_url_text` from `types/base_info.rs`. -/
def parseUrlText (s : SourceBaseInfo) (text : String) (rootDir : Option Url) :
    Except ErrorKind Url :=
  let fakeBaseInfo := match rootDir with | some _ => useFsRootAsOrigin s | none => s
  let urlRes : Except ErrorKind Url :=
    match uriTryFrom text with
    | .ok ⟨url⟩ => .ok url
    | .error (e@(.ParseUrl _ _)) =>
      match fakeBaseInfo with
      | .NoRoot base =>
        if isRootRelative text then .error (.InvalidBaseJoin text)
        else
          match base.joinRooted [text] with
          | .ok u => .ok u
          | .error pe => .error (.ParseUrl pe text)
      | .Full origin subpath =>
        match origin.joinRooted [subpath, text] with
        | .ok u => .ok u
        | .error pe => .error (.ParseUrl pe text)
      | .None => .error e
    | .error e => .error e
  match urlRes with
  | .error e => .error e
  | .ok url =>
    match rootDir with
    | some rd =>
      if isRootRelative text && url.scheme = "file" then
        match splitUrlOriginAndPath url with
        | some (_, subpath) =>
          match rd.join subpath with
          | .ok u => .ok u
          | .error pe => .error (.ParseUrl pe text)
        | none => .ok url
      else .ok url
    | none => .ok url

/-- `UrlMappings` from `types/url_mapping.rs`: an ordered list of
`(old_url, new_url)` pairs, destructured in the source as
`(remote, local)`. -/
structure UrlMappings where
  mappings : List (Url × Url)
deriving DecidableEq

/-- `UrlMappings::new`.  The draft source calls `strictly_relative_to`
without the later `traverse_up` flag; its behaviour is the
`traverse_up = false` (strict-descendant) form, matching the function's
doc ("If any pair has a URL which is a subpath of its other URL"). -/
def UrlMappings.new (ms : List (Url × Url)) : Except ErrorKind UrlMappings :=
  let conflicting := ms.find? fun p =>
    if p.1 = p.2 then false
    else (strictlyRelativeTo p.1 p.2 false).isSome || (strictlyRelativeTo p.2 p.1 false).isSome
  match conflicting with
  | some p =>
    .error (.InvalidBase p.1.toText
      ("base cannot be parent or child of root-dir " ++ p.2.toText))
  | none => .ok ⟨ms⟩

/-- `UrlMappings::map_to_new_url`: first pair whose right (`local`) side
has the URL as a strict path-descendant; returns the left (`remote`)
side with the computed subpath. -/
def UrlMappings.mapToNewUrl (m : UrlMappings) (url : Url) : Option (Url × String) :=
  m.mappings.findSome? fun p => (strictlyRelativeTo url p.2 false).map fun s => (p.1, s)

/-- `UrlMappings::map_to_old_url`: the reverse direction. -/
def UrlMappings.mapToOldUrl (m : UrlMappings) (url : Url) : Option (Url × String) :=
  m.mappings.findSome? fun p => (strictlyRelativeTo url p.1 false).map fun s => (p.2, s)

/-- Modelled from the spec: `ResolvedInputSource` (not under `src/`).
A filesystem path is its list of path components; stdin has no URL. -/
inductive ResolvedInputSource where
  | Stdin
  | FsPath (segs : List String)
  | RemoteUrl (u : Url)
deriving DecidableEq

/-- Modelled from the spec: `InputSource::to_url` returns `None` for
sources with no addressable base (stdin); a filesystem path becomes the
corresponding `file:` URL. -/
def ResolvedInputSource.toUrl : ResolvedInputSource → Except ErrorKind (Option Url)
  | .Stdin => .ok none
  | .FsPath segs => .ok (some ⟨"file", some "", none, segs, none, none, false⟩)
  | .RemoteUrl u => .ok (some u)

/-- Modelled from the spec: `Base` is `Remote(Url)` or `Local(Path)`;
`Base::to_url` turns a local path into a `file:` directory URL (trailing
slash) and fails for a URL that cannot be a base. -/
inductive Base where
  | Remote (u : Url)
  | Local (segs : List String)
deriving DecidableEq

def Base.toUrl : Base → Except ErrorKind Url
  | .Remote u =>
    if u.cannotBeABase then .error (.InvalidBase u.toText "cannot be a base") else .ok u
  | .Local segs => .ok ⟨"file", some "", none, segs ++ [""], none, none, false⟩

/-- `prepare_source_base_info` from `types/base_info.rs`. -/
def prepareSourceBaseInfo (source : ResolvedInputSource)
    (rootAndBase : Option (List String × Option Base)) (fallbackBase : Option Base) :
    Except ErrorKind (SourceBaseInfo × UrlMappings) :=
  let rootAndBaseRes : Except ErrorKind (Option (Url × Url)) :=
    match rootAndBase with
    | some (root, baseOption) =>
      match (Base.Local root).toUrl with
      | .error e => .error e
      | .ok rootUrl =>
        match baseOption with
        | none => .ok (some (rootUrl, rootUrl))
        | some b =>
          match b.toUrl with
          | .error e => .error e
          | .ok baseUrl => .ok (some (rootUrl, baseUrl))
    | none => .ok none
  match rootAndBaseRes with
  | .error e => .error e
  | .ok rootAndBaseUrls =>
    let fallbackRes : Except ErrorKind SourceBaseInfo :=
      match fallbackBase with
      | none => .ok .None
      | some fb =>
        match fb.toUrl with
        | .error e => .error e
        | .ok fallbackUrl => .ok (fromSourceUrl fallbackUrl)
    match fallbackRes with
    | .error e => .error e
    | .ok fallback =>
      match UrlMappings.new rootAndBaseUrls.toList with
      | .error e => .error e
      | .ok mappings =>
        match source.toUrl with
        | .error e => .error e
        | .ok sourceUrlOpt =>
          let baseInfo :=
            match sourceUrlOpt with
            | some sourceUrl =>
              match mappings.mapToOldUrl sourceUrl with
              | some (remote, subpath) => SourceBaseInfo.Full remote subpath
              | none => fromSourceUrl sourceUrl
            | none => SourceBaseInfo.None
          .ok (baseInfo.orFallback fallback, mappings)

/-- `PathSegmentsMut::pop_if_empty` applied through
`path_segments_mut`: drop a trailing empty segment, keeping the root. -/
def popIfEmpty (u : Url) : Url :=
  if u.cannotBeABase then u
  else
    match u.path with
    | [""] => u
    | p => if p.getLast? = some "" then { u with path := p.dropLast } else u

/-- `parse_url_with_base_info` from `types/base_info.rs`. -/
def parseUrlWithBaseInfo (baseInfo : SourceBaseInfo) (mappings : UrlMappings)
    (text : String) : Except ErrorKind Uri :=
  match parseUrlText baseInfo text none with
  | .error e => .error e
  | .ok url =>
    let url :=
      (match mappings.mapToNewUrl url with
        | some (localSide, subpath) =>
          match localSide.join subpath with
          | .ok u => some u
          | .error _ => none
        | none => none).getD url
    let url := if url.scheme = "file" then popIfEmpty url else url
    .ok ⟨url⟩

/-- `is_scheme_relative_link` from `types/uri/relative.rs`. -/
def isSchemeRelativeLink (text : String) : Bool :=
  match trimStartChars text.data with
  | '/' :: '/' :: _ => true
  | _ => false

/-- `is_root_relative_link` from `types/uri/relative.rs`. -/
def isRootRelativeLink (text : String) : Bool :=
  !isSchemeRelativeLink text &&
    (match trimStartChars text.data with
      | '/' :: _ => true
      | _ => false)

/-- `RelativeUri` from `types/uri/relative.rs`. -/
inductive RelativeUri where
  | RootRel (s : String)
  | SchemeRel (s : String)
  | LocalRel (s : String)
deriving DecidableEq

/-- `parse_url_or_relative` from `types/uri/relative.rs`. -/
def parseUrlOrRelative (text : String) : Except ErrorKind (Uri ⊕ RelativeUri) :=
  let text := String.mk (trimStartChars text.data)
  match uriTryFrom text with
  | .ok uri => .ok (.inl uri)
  | .error (.ParseUrl .RelativeUrlWithoutBase _) =>
    if isSchemeRelativeLink text then .ok (.inr (.SchemeRel text))
    else if isRootRelativeLink text then .ok (.inr (.RootRel text))
    else .ok (.inr (.LocalRel text))
  | .error e => .error e

/-- The rank of a `SourceBaseInfo` variant in the order
`None < NoRoot < Full` (how much base information it carries). -/
def variantRank : SourceBaseInfo → Nat
  | .None => 0
  | .NoRoot _ => 1
  | .Full _ _ => 2

/-! ## Basic list and string lemmas -/

theorem data_append (a b : String) : (a ++ b).data = a.data ++ b.data :=
  String.data_append a b

theorem mk_data (s : String) : String.mk s.data = s := by cases s; rfl

theorem joinWithSlash_cons_cons (s t : String) (rest : List String) :
    joinWithSlash (s :: t :: rest) = s ++ "/" ++ joinWithSlash (t :: rest) := rfl

theorem joinWithSlash_append_last (xs : List String) (y z : String) :
    joinWithSlash (xs ++ [y ++ z]) = joinWithSlash (xs ++ [y]) ++ z := by
  induction xs with
  | nil => simp [joinWithSlash]
  | cons x xs ih =>
    cases xs with
    | nil => simp [joinWithSlash, String.append_assoc]
    | cons x' xs' =>
      simp only [List.cons_append, joinWithSlash_cons_cons] at *
      rw [ih, String.append_assoc, String.append_assoc, String.append_assoc]

theorem joinWithSlash_dotSlash (rest : List String) :
    joinWithSlash ("./" :: rest) = joinWithSlash ("." :: "" :: rest) := by
  cases rest with
  | nil => rfl
  | cons r rs =>
    show ".//" ++ joinWithSlash (r :: rs) = "./" ++ ("/" ++ joinWithSlash (r :: rs))
    rw [show (".//" : String) = "./" ++ "/" from rfl, String.append_assoc]

theorem stripCommonPre_nil (ys : List String) : stripCommonPre [] ys = ([], ys) := by
  cases ys <;> rfl

theorem stripCommonPre_self_append (l m : List String) :
    stripCommonPre l (l ++ m) = ([], m) := by
  induction l with
  | nil => exact stripCommonPre_nil m
  | cons x xs ih =>
    cases m with
    | nil => simpa [stripCommonPre] using ih
    | cons y ys => simpa [stripCommonPre] using ih

/-! ## Characters and trimming -/

/-- Characters allowed in a path segment for the confinement results: no
separator, query, fragment or scheme delimiter, and no ASCII whitespace. -/
def segOkChar (c : Char) : Bool :=
  !(c = '/' || c = '?' || c = '#' || c = ':' || wsChar c)

def segOk (s : String) : Bool := s.data.all segOkChar

def qfChar (c : Char) : Bool := !(c = '#' || wsChar c)

def queryOk : Option String → Bool
  | none => true
  | some q => q.data.all qfChar

def fragOk : Option String → Bool
  | none => true
  | some f => f.data.all fun c => !wsChar c

theorem dropWhile_eq_self_of_all {p : Char → Bool} (l : List Char)
    (h : l.all (fun c => !p c) = true) : l.dropWhile p = l := by
  cases l with
  | nil => rfl
  | cons x xs =>
    simp only [List.all_cons, Bool.and_eq_true, Bool.not_eq_true'] at h
    simp [List.dropWhile_cons, h.1]

theorem trimChars_eq_self (l : List Char) (h : l.all (fun c => !wsChar c) = true) :
    trimChars l = l := by
  unfold trimChars trimStartChars
  rw [dropWhile_eq_self_of_all l h, dropWhile_eq_self_of_all l.reverse (by
    simpa using h), List.reverse_reverse]

/-! ## splitFirst, splitSegs and their inverses -/

theorem splitFirst_of_not_mem (c : Char) (l : List Char)
    (h : l.all (fun x => !(x = c)) = true) : splitFirst c l = (l, none) := by
  induction l with
  | nil => rfl
  | cons x xs ih =>
    simp only [List.all_cons, Bool.and_eq_true, Bool.not_eq_true'] at h
    simp [splitFirst, of_decide_eq_false h.1, ih (by simp [h.2])]

theorem splitFirst_append (c : Char) (a b : List Char)
    (h : a.all (fun x => !(x = c)) = true) : splitFirst c (a ++ c :: b) = (a, some b) := by
  induction a with
  | nil => simp [splitFirst]
  | cons x xs ih =>
    simp only [List.all_cons, Bool.and_eq_true, Bool.not_eq_true'] at h
    simp [splitFirst, of_decide_eq_false h.1, ih (by simp [h.2])]

theorem splitSegs_ne_nil (c : Char) (l : List Char) : splitSegs c l ≠ [] := by
  cases l with
  | nil => simp [splitSegs]
  | cons x xs =>
    simp only [splitSegs]
    cases h : splitSegs c xs with
    | nil => simp
    | cons s rest =>
      by_cases hx : x = c <;> simp [hx]

theorem splitSegs_of_not_mem (c : Char) (l : List Char)
    (h : l.all (fun x => !(x = c)) = true) : splitSegs c l = [l] := by
  induction l with
  | nil => rfl
  | cons x xs ih =>
    simp only [List.all_cons, Bool.and_eq_true, Bool.not_eq_true'] at h
    rw [splitSegs, ih (by simp [h.2])]
    simp [of_decide_eq_false h.1]

theorem splitSegs_append (c : Char) (a b : List Char)
    (h : a.all (fun x => !(x = c)) = true) :
    splitSegs c (a ++ c :: b) = a :: splitSegs c b := by
  induction a with
  | nil =>
    simp only [List.nil_append, splitSegs]
    cases hb : splitSegs c b with
    | nil => exact absurd hb (splitSegs_ne_nil c b)
    | cons s rest => simp
  | cons x xs ih =>
    simp only [List.all_cons, Bool.and_eq_true, Bool.not_eq_true'] at h
    rw [List.cons_append, splitSegs, ih (by simp [h.2])]
    simp [of_decide_eq_false h.1]

/-! ## Inverting `joinWithSlash` -/

theorem segOk_no_slash (s : String) (h : segOk s = true) :
    s.data.all (fun x => !(x = '/')) = true := by
  simp only [segOk, List.all_eq_true] at h ⊢
  intro c hc
  have := h c hc
  simp only [segOkChar, Bool.not_eq_true', Bool.or_eq_false_iff] at this
  simp [this.1.1.1.1]

theorem splitSegs_joinWithSlash (segs : List String) (hne : segs ≠ [])
    (h : segs.all segOk = true) :
    splitSegs '/' (joinWithSlash segs).data = segs.map String.data := by
  induction segs with
  | nil => exact absurd rfl hne
  | cons s rest ih =>
    cases rest with
    | nil =>
      simp only [List.all_cons, Bool.and_eq_true] at h
      simp [joinWithSlash, splitSegs_of_not_mem '/' s.data (segOk_no_slash s h.1)]
    | cons t rest2 =>
      simp only [List.all_cons, Bool.and_eq_true] at h
      have hd : (joinWithSlash (s :: t :: rest2)).data
          = s.data ++ '/' :: (joinWithSlash (t :: rest2)).data := by
        rw [joinWithSlash_cons_cons, data_append, data_append, List.append_assoc]
        rfl
      rw [hd, splitSegs_append '/' _ _ (segOk_no_slash s h.1),
        ih (by simp) (by simp [h.2.1, h.2.2])]
      rfl

theorem toSegs_joinWithSlash (segs : List String) (hne : segs ≠ [])
    (h : segs.all segOk = true) : toSegs (joinWithSlash segs).data = segs := by
  unfold toSegs
  rw [splitSegs_joinWithSlash segs hne h, List.map_map]
  have : (String.mk ∘ String.data) = id := by
    funext s
    exact mk_data s
  rw [this, List.map_id]

/-! ## `resolveDots` facts -/

/-- Segments of a resolved path: allowed characters and not a dot
segment. -/
def cleanSeg (s : String) : Bool := segOk s && !(s = ".") && !(s = "..")

theorem resolveDots_pre (segs : List String) :
    ∀ stack : List String, (∀ s ∈ segs, s ≠ "..") → stack <+: resolveDots stack segs := by
  induction segs with
  | nil => intro stack _; simp [resolveDots]
  | cons seg rest ih =>
    intro stack h
    have hseg : seg ≠ ".." := h seg (by simp)
    cases rest with
    | nil =>
      simp only [resolveDots, if_neg hseg]
      split
      · exact List.prefix_append stack [""]
      · exact List.prefix_append stack [seg]
    | cons seg2 rest2 =>
      simp only [resolveDots, if_neg hseg]
      split
      · exact ih stack (fun s hs => h s (by simp [hs]))
      · exact (List.prefix_append stack [seg]).trans
          (ih (stack ++ [seg]) (fun s hs => h s (by simp [hs])))

theorem resolveDots_ne_nil (segs : List String) (hne : segs ≠ []) :
    ∀ stack : List String, resolveDots stack segs ≠ [] := by
  induction segs with
  | nil => exact absurd rfl hne
  | cons seg rest ih =>
    intro stack
    cases rest with
    | nil =>
      simp only [resolveDots]
      split
      · simp
      · split <;> simp
    | cons seg2 rest2 =>
      simp only [resolveDots]
      split
      · exact ih (by simp) _
      · split
        · exact ih (by simp) _
        · exact ih (by simp) _

theorem all_dropLast {p : String → Bool} (l : List String) (h : l.all p = true) :
    l.dropLast.all p = true := by
  simp only [List.all_eq_true] at h ⊢
  exact fun s hs => h s (List.dropLast_subset l hs)

theorem resolveDots_all (segs : List String) :
    ∀ stack : List String, stack.all cleanSeg = true → segs.all segOk = true →
      (resolveDots stack segs).all cleanSeg = true := by
  induction segs with
  | nil => intro stack hs _; simpa [resolveDots] using hs
  | cons seg rest ih =>
    intro stack hs hg
    simp only [List.all_cons, Bool.and_eq_true] at hg
    have hpush : seg ≠ "." → seg ≠ ".." → (stack ++ [seg]).all cleanSeg = true := by
      intro h1 h2
      rw [List.all_append, hs]
      simp [cleanSeg, hg.1, h1, h2]
    have hempty : (stack ++ [""]).all cleanSeg = true := by
      rw [List.all_append, hs]
      simp [cleanSeg, segOk]
    cases rest with
    | nil =>
      simp only [resolveDots]
      split
      · rw [List.all_append, all_dropLast stack hs]
        simp [cleanSeg, segOk]
      · split
        · exact hempty
        · next h1 h2 => exact hpush h2 h1
    | cons seg2 rest2 =>
      simp only [resolveDots]
      split
      · exact ih _ (all_dropLast stack hs) hg.2
      · split
        · exact ih _ hs hg.2
        · next h1 h2 => exact ih _ (hpush h2 h1) hg.2

/-! ## Scheme detection failure -/

theorem schemeSpanAux_no_colon (l : List Char)
    (h : l.all (fun c => !(c = ':')) = true) : schemeSpanAux l = none := by
  induction l with
  | nil => rfl
  | cons c cs ih =>
    simp only [List.all_cons, Bool.and_eq_true, Bool.not_eq_true'] at h
    rw [schemeSpanAux, if_neg (of_decide_eq_false h.1)]
    split
    · rw [ih (by simp [h.2])]
    · rfl

theorem schemeSpanAux_stop (a : List Char) (d : Char) (b : List Char)
    (ha : a.all (fun c => !(c = ':')) = true) (hd1 : d ≠ ':')
    (hd2 : (d.isAlphanum || d = '+' || d = '-' || d = '.') = false) :
    schemeSpanAux (a ++ d :: b) = none := by
  induction a with
  | nil =>
    rw [List.nil_append, schemeSpanAux, if_neg hd1, hd2]
    rfl
  | cons c cs ih =>
    simp only [List.all_cons, Bool.and_eq_true, Bool.not_eq_true'] at ha
    rw [List.cons_append, schemeSpanAux, if_neg (of_decide_eq_false ha.1)]
    split
    · rw [ih (by simp [ha.2])]
    · rfl

theorem parseRefChars_relArm (input l : List Char) (htrim : trimChars input = l)
    (hspan : schemeSpanAux l = none) : parseRefChars input = relDispatch l := by
  rw [parseRefChars, htrim, hspan]

theorem relDispatch_path (l : List Char) (c0 : Char) (T : List Char) (hl : l = c0 :: T)
    (h1 : ¬c0 = '/') (h2 : ¬c0 = '?') (h3 : ¬c0 = '#') :
    relDispatch l = .ok (.pathRel (toSegs (splitPathQF l).1)
      ((splitPathQF l).2.1.map String.mk) ((splitPathQF l).2.2.map String.mk)) := by
  subst hl
  rw [relDispatch, if_neg h1, if_neg h2, if_neg h3]

theorem relDispatch_root (rest' : List Char) (hh : ¬rest'.head? = some '/') :
    relDispatch ('/' :: rest') = .ok (.rootRel (toSegs (splitPathQF rest').1)
      ((splitPathQF rest').2.1.map String.mk) ((splitPathQF rest').2.2.map String.mk)) := by
  rw [relDispatch, if_pos rfl, if_neg hh]

/-! ## Characterizing the parse of constructed relative strings -/

/-- Optional `?query` tail at character level. -/
def optQ : Option (List Char) → List Char
  | none => []
  | some l => '?' :: l

/-- Optional `#fragment` tail at character level. -/
def optF : Option (List Char) → List Char
  | none => []
  | some l => '#' :: l

theorem joinWithSlash_all (p : Char → Bool) (hslash : p '/' = true) (segs : List String)
    (h : segs.all (fun s => s.data.all p) = true) :
    (joinWithSlash segs).data.all p = true := by
  induction segs with
  | nil => rfl
  | cons s rest ih =>
    simp only [List.all_cons, Bool.and_eq_true] at h
    cases rest with
    | nil => exact h.1
    | cons t rest2 =>
      rw [joinWithSlash_cons_cons, data_append, data_append, List.all_append, List.all_append]
      rw [h.1, ih h.2]
      simpa using hslash

theorem segOk_all_of (p : Char → Bool) (hp : ∀ c, segOkChar c = true → p c = true)
    (segs : List String) (h : segs.all segOk = true) :
    segs.all (fun s => s.data.all p) = true := by
  simp only [List.all_eq_true] at h ⊢
  intro s hs
  intro c hc
  have := h s hs
  simp only [segOk, List.all_eq_true] at this
  exact hp c (this c hc)

theorem segOkChar_ne (c : Char) (h : segOkChar c = true) :
    c ≠ '/' ∧ c ≠ '?' ∧ c ≠ '#' ∧ c ≠ ':' ∧ wsChar c = false := by
  simp only [segOkChar, Bool.not_eq_true', Bool.or_eq_false_iff, decide_eq_false_iff_not] at h
  exact ⟨h.1.1.1.1, h.1.1.1.2, h.1.1.2, h.1.2, h.2⟩

theorem qfChar_ne (c : Char) (h : qfChar c = true) : c ≠ '#' ∧ wsChar c = false := by
  simp only [qfChar, Bool.not_eq_true', Bool.or_eq_false_iff, decide_eq_false_iff_not] at h
  exact ⟨h.1, h.2⟩

/-- The full character list `path ++ optQ ++ optF` of a constructed
relative reference has no ASCII whitespace. -/
theorem built_no_ws (segs : List String) (qd fd : Option (List Char))
    (hall : segs.all segOk = true)
    (hq : (qd.getD []).all qfChar = true)
    (hf : (fd.getD []).all (fun c => !wsChar c) = true) :
    ((joinWithSlash segs).data ++ optQ qd ++ optF fd).all (fun c => !wsChar c) = true := by
  rw [List.all_append, List.all_append, Bool.and_eq_true, Bool.and_eq_true]
  refine ⟨⟨?_, ?_⟩, ?_⟩
  · exact joinWithSlash_all _ (by decide) segs
      (segOk_all_of _ (fun c hc => by simp [(segOkChar_ne c hc).2.2.2.2]) segs hall)
  · cases qd with
    | none => rfl
    | some l =>
      simp only [Option.getD, List.all_eq_true] at hq
      simp only [optQ, List.all_cons, Bool.and_eq_true, List.all_eq_true]
      exact ⟨by decide, fun c hc => by simp [(qfChar_ne c (hq c hc)).2]⟩
  · cases fd with
    | none => rfl
    | some l =>
      simp only [Option.getD] at hf
      rw [optF, List.all_cons, hf, Bool.and_true]
      decide

theorem parseRefChars_built (segs : List String) (qd fd : Option (List Char))
    (hne : segs ≠ []) (hall : segs.all segOk = true)
    (hq : (qd.getD []).all qfChar = true)
    (hf : (fd.getD []).all (fun c => !wsChar c) = true)
    (hhead : segs.head? ≠ some "") :
    parseRefChars ((joinWithSlash segs).data ++ optQ qd ++ optF fd)
      = .ok (.pathRel segs (qd.map String.mk) (fd.map String.mk)) := by
  obtain ⟨s0, rest, rfl⟩ : ∃ s0 rest, segs = s0 :: rest := by
    cases segs with
    | nil => exact absurd rfl hne
    | cons a b => exact ⟨a, b, rfl⟩
  have hs0ne : s0 ≠ "" := by
    intro h
    exact hhead (by simp [h])
  obtain ⟨c0, cs0, hc0⟩ : ∃ c0 cs0, s0.data = c0 :: cs0 := by
    cases hd : s0.data with
    | nil =>
      exfalso
      apply hs0ne
      cases s0 with
      | mk d =>
        simp only [String.data] at hd
        rw [hd]
    | cons a b => exact ⟨a, b, rfl⟩
  have hall' := hall
  simp only [List.all_cons, Bool.and_eq_true] at hall'
  have hs0ok : s0.data.all segOkChar = true := hall'.1
  have hc0ok : segOkChar c0 = true := by
    rw [hc0, List.all_cons, Bool.and_eq_true] at hs0ok
    exact hs0ok.1
  obtain ⟨hc0s, hc0q, hc0h, hc0c, hc0w⟩ := segOkChar_ne c0 hc0ok
  have hs0ok' : s0.data.all segOkChar = true := hall'.1
  have hs0nc : s0.data.all (fun c => !(c = ':')) = true := by
    simp only [List.all_eq_true] at hs0ok' ⊢
    intro c hcmem
    simp [(segOkChar_ne c (hs0ok' c hcmem)).2.2.2.1]
  set P := (joinWithSlash (s0 :: rest)).data with hP
  set L := P ++ optQ qd ++ optF fd with hL
  have htrim : trimChars L = L :=
    trimChars_eq_self L (built_no_ws (s0 :: rest) qd fd hall hq hf)
  have hspan : schemeSpanAux L = none := by
    cases rest with
    | cons r rs =>
      have hx : L = s0.data ++ '/' ::
          ((joinWithSlash (r :: rs)).data ++ optQ qd ++ optF fd) := by
        rw [hL, hP, joinWithSlash_cons_cons, data_append, data_append]
        simp [List.append_assoc]
      rw [hx]
      exact schemeSpanAux_stop s0.data '/' _ hs0nc (by decide) (by decide)
    | nil =>
      cases qd with
      | some ql =>
        have hx : L = s0.data ++ '?' :: (ql ++ optF fd) := by
          rw [hL, hP]
          simp [joinWithSlash, optQ, List.append_assoc]
        rw [hx]
        exact schemeSpanAux_stop s0.data '?' _ hs0nc (by decide) (by decide)
      | none =>
        cases fd with
        | some fl =>
          have hx : L = s0.data ++ '#' :: fl := by
            rw [hL, hP]
            simp [joinWithSlash, optQ, optF]
          rw [hx]
          exact schemeSpanAux_stop s0.data '#' _ hs0nc (by decide) (by decide)
        | none =>
          have hx : L = s0.data := by
            rw [hL, hP]
            simp [joinWithSlash, optQ, optF]
          rw [hx]
          exact schemeSpanAux_no_colon s0.data hs0nc
  have hPnoHash : P.all (fun c => !(c = '#')) = true := by
    rw [hP]
    exact joinWithSlash_all _ (by decide) _
      (segOk_all_of _ (fun c hc => by simp [(segOkChar_ne c hc).2.2.1]) _ hall)
  have hPnoQ : P.all (fun c => !(c = '?')) = true := by
    rw [hP]
    exact joinWithSlash_all _ (by decide) _
      (segOk_all_of _ (fun c hc => by simp [(segOkChar_ne c hc).2.1]) _ hall)
  have hPQnoHash : (P ++ optQ qd).all (fun c => !(c = '#')) = true := by
    rw [List.all_append, hPnoHash, Bool.true_and]
    cases qd with
    | none => rfl
    | some ql =>
      simp only [Option.getD, List.all_eq_true] at hq
      simp only [optQ, List.all_cons, Bool.and_eq_true, List.all_eq_true]
      exact ⟨by decide, fun c hc => by simp [(qfChar_ne c (hq c hc)).1]⟩
  have hsplitH : splitFirst '#' L = (P ++ optQ qd, fd) := by
    cases fd with
    | some fl =>
      have hx : L = (P ++ optQ qd) ++ '#' :: fl := by
        rw [hL]
        rfl
      rw [hx, splitFirst_append '#' _ _ hPQnoHash]
    | none =>
      have hx : L = P ++ optQ qd := by
        rw [hL]
        simp [optF]
      rw [hx, splitFirst_of_not_mem '#' _ hPQnoHash]
  have hsplitQ : splitFirst '?' (P ++ optQ qd) = (P, qd) := by
    cases qd with
    | some ql =>
      rw [show P ++ optQ (some ql) = P ++ '?' :: ql from rfl,
        splitFirst_append '?' _ _ hPnoQ]
    | none =>
      rw [show P ++ optQ none = P by simp [optQ],
        splitFirst_of_not_mem '?' _ hPnoQ]
  have hsplit : splitPathQF L = (P, qd, fd) := by
    rw [splitPathQF, hsplitH]
    simp only [hsplitQ]
  have htosegs : toSegs P = s0 :: rest := by
    rw [hP]
    exact toSegs_joinWithSlash _ hne hall
  obtain ⟨t, hPt⟩ : ∃ t, P = c0 :: t := by
    cases rest with
    | nil => exact ⟨cs0, by rw [hP]; simpa [joinWithSlash] using hc0⟩
    | cons r rs =>
      refine ⟨cs0 ++ '/' :: (joinWithSlash (r :: rs)).data, ?_⟩
      rw [hP, joinWithSlash_cons_cons, data_append, data_append, hc0]
      simp
  have hLcons : L = c0 :: (t ++ optQ qd ++ optF fd) := by
    rw [hL, hPt]
    simp [List.append_assoc]
  rw [parseRefChars_relArm L L htrim hspan,
    relDispatch_path L c0 (t ++ optQ qd ++ optF fd) hLcons hc0s hc0q hc0h, hsplit]
  simp only [htosegs]

theorem parseRefChars_qOnly (ql : List Char) (fd : Option (List Char))
    (hq : ql.all qfChar = true)
    (hf : (fd.getD []).all (fun c => !wsChar c) = true) :
    parseRefChars ('?' :: (ql ++ optF fd))
      = .ok (.queryFrag (some (String.mk ql)) (fd.map String.mk)) := by
  have hnws : ('?' :: (ql ++ optF fd)).all (fun c => !wsChar c) = true := by
    simp only [List.all_cons, List.all_append, Bool.and_eq_true, List.all_eq_true]
    refine ⟨by decide, fun c hc => by simp [(qfChar_ne c (by
      simp only [List.all_eq_true] at hq
      exact hq c hc)).2], ?_⟩
    cases fd with
    | none => simp [optF]
    | some fl =>
      simp only [Option.getD] at hf
      simp only [List.all_eq_true] at hf
      intro c hc
      rcases List.mem_cons.mp hc with h | h
      · rw [h]
        decide
      · exact hf c h
  have htrim : trimChars ('?' :: (ql ++ optF fd)) = '?' :: (ql ++ optF fd) :=
    trimChars_eq_self _ hnws
  have hspan : schemeSpanAux ('?' :: (ql ++ optF fd)) = none := by
    rw [schemeSpanAux, if_neg (by decide), if_neg (by decide)]
  have hqh : ql.all (fun c => !(c = '#')) = true := by
    simp only [List.all_eq_true] at hq ⊢
    intro c hc
    simp [(qfChar_ne c (hq c hc)).1]
  have hsplitH : splitFirst '#' (ql ++ optF fd) = (ql, fd) := by
    cases fd with
    | some fl => rw [show ql ++ optF (some fl) = ql ++ '#' :: fl from rfl,
        splitFirst_append '#' _ _ hqh]
    | none => rw [show ql ++ optF none = ql by simp [optF],
        splitFirst_of_not_mem '#' _ hqh]
  rw [parseRefChars_relArm _ _ htrim hspan, relDispatch,
    if_neg (by decide : ¬('?' : Char) = '/'), if_pos (by decide : ('?' : Char) = '?'), hsplitH]

theorem parseRefChars_fOnly (fl : List Char)
    (hf : fl.all (fun c => !wsChar c) = true) :
    parseRefChars ('#' :: fl) = .ok (.queryFrag none (some (String.mk fl))) := by
  have hnws : ('#' :: fl).all (fun c => !wsChar c) = true := by
    rw [List.all_cons, hf, Bool.and_true]
    decide
  have htrim : trimChars ('#' :: fl) = '#' :: fl := trimChars_eq_self _ hnws
  have hspan : schemeSpanAux ('#' :: fl) = none := by
    rw [schemeSpanAux, if_neg (by decide), if_neg (by decide)]
  rw [parseRefChars_relArm _ _ htrim hspan, relDispatch,
    if_neg (by decide : ¬('#' : Char) = '/'), if_neg (by decide : ¬('#' : Char) = '?'),
    if_pos (by decide : ('#' : Char) = '#')]

theorem parseRefChars_nil : parseRefChars [] = .ok (.queryFrag none none) := rfl

/-! ## Root-relative texts never parse as absolute URLs -/


/-! ## Root-relative texts never parse as absolute URLs -/

theorem trimChars_slash (l rest : List Char) (h : trimStartChars l = '/' :: rest) :
    ∃ rest', trimChars l = '/' :: rest' ∧ rest' <+: rest := by
  refine ⟨(rest.reverse.dropWhile wsChar).reverse, ?_, ?_⟩
  · rw [trimChars, h, List.reverse_cons, List.dropWhile_append]
    by_cases hemp : (List.dropWhile wsChar rest.reverse).isEmpty = true
    · rw [if_pos hemp]
      rw [List.isEmpty_iff] at hemp
      rw [hemp, show List.dropWhile wsChar ['/'] = ['/'] from by decide]
      rfl
    · rw [if_neg hemp]
      simp
  · conv_rhs => rw [← List.reverse_reverse rest]
    exact List.reverse_prefix.mpr (List.dropWhile_suffix wsChar)

theorem isRootRelative_shape (text : String) (h : isRootRelative text = true) :
    ∃ rest, trimStartChars text.data = '/' :: rest ∧ rest.head? ≠ some '/' := by
  unfold isRootRelative at h
  split at h
  · exact absurd h (by decide)
  · rename_i tail x heq
    refine ⟨tail, heq, fun hh => ?_⟩
    cases tail with
    | nil => simp at hh
    | cons t ts =>
      simp only [List.head?, Option.some.injEq] at hh
      exact x ts (by rw [hh])
  · exact absurd h (by decide)

theorem parseRefChars_rootRel (text : String) (h : isRootRelative text = true) :
    ∃ rest', trimChars text.data = '/' :: rest' ∧
      parseRefChars text.data = .ok (.rootRel (toSegs (splitPathQF rest').1)
        ((splitPathQF rest').2.1.map String.mk) ((splitPathQF rest').2.2.map String.mk)) := by
  obtain ⟨rest, ht, hh⟩ := isRootRelative_shape text h
  obtain ⟨rest', htc, hpre⟩ := trimChars_slash text.data rest ht
  have hhead : ¬(rest'.head? = some '/') := by
    intro hcon
    cases rest' with
    | nil => simp at hcon
    | cons r rs =>
      obtain ⟨t, hht⟩ := hpre
      simp only [List.head?, Option.some.injEq] at hcon
      apply hh
      rw [← hht, List.cons_append, List.head?, hcon]
  have hspan : schemeSpanAux ('/' :: rest') = none := by
    rw [schemeSpanAux, if_neg (by decide), if_neg (by decide)]
  refine ⟨rest', htc, ?_⟩
  rw [parseRefChars_relArm text.data ('/' :: rest') htc hspan, relDispatch_root rest' hhead]

/-! ## The confinement invariant -/

/-- The sentinel authority used by `join_rooted`. -/
def sentinelHost : String := "secret-lychee-base-url.invalid"

/-- A link text whose parse is a relative reference carrying no scheme and
no authority, with plain segments (no `:`, `/`, `?`, `#` or ASCII
whitespace characters; `.` and `..` segments allowed), a query free of `#`
and whitespace, and a whitespace-free fragment. -/
def relInput (s : String) : Bool :=
  match parseRefChars s.data with
  | .ok (.rootRel segs q f) => !segs.isEmpty && segs.all segOk && queryOk q && fragOk f
  | .ok (.pathRel segs q f) => !segs.isEmpty && segs.all segOk && queryOk q && fragOk f
  | .ok (.queryFrag q f) => queryOk q && fragOk f
  | _ => false

/-- Invariant maintained by the chained joins against the relocated
(`fake`) base inside `join_rooted`. -/
def FakeInv (p0 : Option Nat) (u : Url) : Prop :=
  u.scheme = "file" ∧ u.host = some sentinelHost ∧ u.port = p0 ∧
    u.cannotBeABase = false ∧ u.path ≠ [] ∧ u.path.all cleanSeg = true ∧
    queryOk u.query = true ∧ fragOk u.fragment = true

theorem join_relInput (p0 : Option Nat) (u : Url) (s : String)
    (hu : FakeInv p0 u) (hs : relInput s = true) :
    ∃ u', u.join s = .ok u' ∧ FakeInv p0 u' := by
  obtain ⟨hsch, hhost, hport, hcb, hne, hclean, hq, hf⟩ := hu
  unfold relInput at hs
  unfold Url.join
  cases hp : parseRefChars s.data with
  | error e => rw [hp] at hs; exact absurd hs (by simp)
  | ok r =>
    rw [hp] at hs
    have hcb' : ¬(u.cannotBeABase = true) := by simp [hcb]
    cases r with
    | abs u2 => exact absurd hs (by simp)
    | schemeRel h2 port2 segs q f => exact absurd hs (by simp)
    | rootRel segs q f =>
      simp only [Bool.and_eq_true, Bool.not_eq_true'] at hs
      obtain ⟨⟨⟨hsegne, hsegok⟩, hq'⟩, hf'⟩ := hs
      refine ⟨_, by simp only [joinRef]; rw [if_neg hcb'], ?_⟩
      refine ⟨hsch, hhost, hport, rfl, ?_, ?_, hq', hf'⟩
      · exact resolveDots_ne_nil segs (by simpa using hsegne) []
      · exact resolveDots_all segs [] rfl hsegok
    | pathRel segs q f =>
      simp only [Bool.and_eq_true, Bool.not_eq_true'] at hs
      obtain ⟨⟨⟨hsegne, hsegok⟩, hq'⟩, hf'⟩ := hs
      refine ⟨_, by simp only [joinRef]; rw [if_neg hcb'], ?_⟩
      refine ⟨hsch, hhost, hport, rfl, ?_, ?_, hq', hf'⟩
      · exact resolveDots_ne_nil segs (by simpa using hsegne) _
      · exact resolveDots_all segs _ (all_dropLast _ hclean) hsegok
    | queryFrag q f =>
      simp only [Bool.and_eq_true] at hs
      obtain ⟨hq', hf'⟩ := hs
      cases q with
      | none =>
        refine ⟨_, by simp only [joinRef]; rfl, ?_⟩
        exact ⟨hsch, hhost, hport, hcb, hne, hclean, hq, hf'⟩
      | some ql =>
        refine ⟨_, by simp only [joinRef]; rw [if_neg hcb'], ?_⟩
        exact ⟨hsch, hhost, hport, hcb, hne, hclean, hq', hf'⟩

theorem foldJoin_relInput (p0 : Option Nat) (sp : List String) :
    ∀ u, FakeInv p0 u → (∀ s ∈ sp, relInput s = true) →
      ∃ u', foldJoin u sp = .ok u' ∧ FakeInv p0 u' := by
  induction sp with
  | nil => exact fun u hu _ => ⟨u, rfl, hu⟩
  | cons s rest ih =>
    intro u hu hall
    obtain ⟨u1, hj, hu1⟩ := join_relInput p0 u s hu (hall s (by simp))
    obtain ⟨u2, hj2, hu2⟩ := ih u1 hu1 (fun t ht => hall t (by simp [ht]))
    exact ⟨u2, by rw [foldJoin, hj]; exact hj2, hu2⟩

/-! ## Rejoining the relativized path onto the real base -/

/-- The relocated base built inside `join_rooted` for a `file:` base `B`:
path replaced by `/.asdjifjdsaiofjdoisa` and host by the sentinel. -/
def mkFakeBase (B : Url) : Url :=
  ⟨B.scheme, some sentinelHost, B.port, [".asdjifjdsaiofjdoisa"], none, none, false⟩

def qTailS : Option String → String
  | none => ""
  | some q => "?" ++ q

def fTailS : Option String → String
  | none => ""
  | some f => "#" ++ f

theorem join_of_parse (B : Url) (s : String) (r : Ref)
    (hp : parseRefChars s.data = .ok r) : B.join s = joinRef B r := by
  unfold Url.join
  rw [hp]

theorem joinRef_pathRel_ok (B : Url) (segs : List String) (q f : Option String)
    (hcb : ¬B.cannotBeABase = true) :
    joinRef B (.pathRel segs q f)
      = .ok ⟨B.scheme, B.host, B.port, resolveDots B.path.dropLast segs, q, f, false⟩ := by
  simp only [joinRef]
  rw [if_neg hcb]

theorem joinRef_qf_none (B : Url) (f : Option String) :
    joinRef B (.queryFrag none f) = .ok { B with fragment := f } := by
  simp only [joinRef]

theorem joinRef_qf_some (B : Url) (q : String) (f : Option String)
    (hcb : ¬B.cannotBeABase = true) :
    joinRef B (.queryFrag (some q) f) = .ok { B with query := some q, fragment := f } := by
  simp only [joinRef]
  rw [if_neg hcb]

theorem data_qfTail (s : String) (q f : Option String) :
    (s ++ qTailS q ++ fTailS f).data
      = s.data ++ optQ (q.map String.data) ++ optF (f.map String.data) := by
  cases q with
  | none =>
    cases f with
    | none => simp [qTailS, fTailS, optQ, optF, data_append]
    | some fv =>
      simp only [qTailS, fTailS, optQ, optF, Option.map, data_append, String.append_empty]
      simp [data_append]
  | some qv =>
    cases f with
    | none =>
      simp only [qTailS, fTailS, optQ, optF, Option.map, data_append, String.append_empty]
      simp [data_append]
    | some fv =>
      simp only [qTailS, fTailS, optQ, optF, Option.map, data_append]
      simp [data_append]

theorem queryOk_map (q : Option String) (hq : queryOk q = true) :
    ((q.map String.data).getD []).all qfChar = true := by
  cases q with
  | none => rfl
  | some qv => exact hq

theorem fragOk_map (f : Option String) (hf : fragOk f = true) :
    ((f.map String.data).getD []).all (fun c => !wsChar c) = true := by
  cases f with
  | none => rfl
  | some fv => exact hf

theorem map_mk_data (q : Option String) : (q.map String.data).map String.mk = q := by
  cases q with
  | none => rfl
  | some qv => simp [mk_data]

/-- Joining a constructed relative-path string onto any hierarchical base
succeeds and cannot leave the base's directory. -/
theorem join_built (B : Url) (segs : List String) (q f : Option String)
    (hBcb : B.cannotBeABase = false) (hne : segs ≠ [])
    (hall : segs.all segOk = true) (hnodots : ∀ s ∈ segs, s ≠ "..")
    (hq : queryOk q = true) (hf : fragOk f = true) (hhead : segs.head? ≠ some "") :
    ∃ w, B.join (joinWithSlash segs ++ qTailS q ++ fTailS f) = .ok w ∧
      w.scheme = B.scheme ∧ w.host = B.host ∧ w.port = B.port ∧
      w.cannotBeABase = false ∧ B.path.dropLast <+: w.path := by
  have hp : parseRefChars (joinWithSlash segs ++ qTailS q ++ fTailS f).data
      = .ok (.pathRel segs q f) := by
    rw [data_qfTail]
    rw [parseRefChars_built segs (q.map String.data) (f.map String.data) hne hall
      (queryOk_map q hq) (fragOk_map f hf) hhead]
    rw [map_mk_data, map_mk_data]
  rw [join_of_parse B _ _ hp, joinRef_pathRel_ok B segs q f (by simp [hBcb])]
  refine ⟨_, rfl, rfl, rfl, rfl, rfl, ?_⟩
  exact resolveDots_pre segs B.path.dropLast hnodots

theorem headRewrite_of_ne (r : List String) :
    r.head? ≠ some "" →
    (match r with | "" :: rest => "./" :: rest | x => x) = r := by
  intro hh
  split
  · exact absurd rfl hh
  · rfl

theorem segOk_of_clean (s : String) (h : cleanSeg s = true) : segOk s = true := by
  simp only [cleanSeg, Bool.and_eq_true] at h
  exact h.1.1

theorem ne_dots_of_clean (s : String) (h : cleanSeg s = true) : s ≠ "." ∧ s ≠ ".." := by
  simp only [cleanSeg, Bool.and_eq_true, Bool.not_eq_true', decide_eq_false_iff_not] at h
  exact ⟨h.1.2, h.2⟩

theorem startsWithDotQ_of_segOk (s : String) (h : segOk s = true) :
    startsWithDotQ s = false := by
  unfold startsWithDotQ
  split
  · rename_i heq
    exfalso
    have hmem : segOkChar '?' = true := by
      simp only [segOk, List.all_eq_true] at h
      exact h '?' (by rw [heq]; simp)
    exact absurd hmem (by decide)
  · rfl

theorem data_seg_q (last ql : String) :
    (last ++ "?" ++ ql).data = last.data ++ '?' :: ql.data := by
  rw [data_append, data_append, List.append_assoc]
  rfl

theorem startsWithDotQ_seg_q (last ql : String) (h : segOk last = true)
    (h0 : last ≠ "") (hdot : last ≠ ".") :
    startsWithDotQ (last ++ "?" ++ ql) = false := by
  unfold startsWithDotQ
  split
  · rename_i heq
    exfalso
    rw [data_seg_q] at heq
    obtain ⟨c, cs, hc⟩ : ∃ c cs, last.data = c :: cs := by
      cases hd : last.data with
      | nil =>
        exfalso
        apply h0
        cases last with
        | mk d =>
          simp only [String.data] at hd
          rw [hd]
      | cons a b => exact ⟨a, b, rfl⟩
    rw [hc, List.cons_append] at heq
    have h1 := List.cons.inj heq
    cases cs with
    | nil =>
      apply hdot
      cases last with
      | mk d =>
        simp only [String.data] at hc
        rw [hc, h1.1]
    | cons c2 cs2 =>
      have h2 := List.cons.inj (by simpa using h1.2)
      have hq2 : segOkChar c2 = true := by
        simp only [segOk, List.all_eq_true] at h
        exact h c2 (by rw [hc]; simp)
      rw [h2.1] at hq2
      exact absurd hq2 (by decide)
  · rfl

theorem seg_q_ne_dot (last ql : String) (h0 : last ≠ "") : (last ++ "?" ++ ql) ≠ "." := by
  intro h
  have hd := congrArg String.data h
  rw [data_seg_q] at hd
  obtain ⟨c, cs, hc⟩ : ∃ c cs, last.data = c :: cs := by
    cases hdd : last.data with
    | nil =>
      exfalso
      apply h0
      cases last with
      | mk d =>
        simp only [String.data] at hdd
        rw [hdd]
    | cons a b => exact ⟨a, b, rfl⟩
  rw [hc] at hd
  have hd' : c :: (cs ++ '?' :: ql.data) = ['.'] := hd
  have h2 : (cs ++ '?' :: ql.data) = [] := (List.cons.inj hd').2
  simp at h2

theorem fwq_last_empty (u : Url) (hgl : u.path.getLast? = some "") :
    filenameWithQuery u = (match u.query with
      | some q => "." ++ "?" ++ q
      | none => ".") := by
  unfold filenameWithQuery
  rw [hgl]
  rfl

theorem fwq_last_ne (u : Url) (last : String) (hgl : u.path.getLast? = some last)
    (h0 : last ≠ "") :
    filenameWithQuery u = (match u.query with
      | some q => last ++ "?" ++ q
      | none => last) := by
  unfold filenameWithQuery
  rw [hgl]
  have : (match some last with
      | some "" | none => "."
      | some f => f) = last := by
    split
    · rename_i heq
      exact absurd (Option.some.inj heq) h0
    · rename_i heq
      exact Option.noConfusion heq
    · rename_i f hfne heq
      exact (Option.some.inj heq).symm
  rw [this]

theorem joinWithSlash_snoc_any (xs : List String) (z : String) :
    joinWithSlash (xs ++ [z]) = joinWithSlash (xs ++ [""]) ++ z := by
  have h := joinWithSlash_append_last xs "" z
  rwa [String.empty_append] at h

theorem rejoin_leaf (B : Url) (rel : String) (segs : List String) (q f : Option String)
    (hBcb : B.cannotBeABase = false)
    (heq : rel = joinWithSlash segs ++ qTailS q ++ fTailS f)
    (hne : segs ≠ []) (hall : segs.all segOk = true) (hnodots : ∀ s ∈ segs, s ≠ "..")
    (hq : queryOk q = true) (hf : fragOk f = true) (hhead : segs.head? ≠ some "") :
    ∃ w, B.join rel = .ok w ∧ w.scheme = B.scheme ∧ w.host = B.host ∧ w.port = B.port ∧
      w.cannotBeABase = false ∧ B.path.dropLast <+: w.path := by
  rw [heq]
  exact join_built B segs q f hBcb hne hall hnodots hq hf hhead

theorem all_segOk_snoc (D : List String) (x : String)
    (hD : ∀ s ∈ D, segOk s = true) (hx : segOk x = true) :
    (D ++ [x]).all segOk = true := by
  simp only [List.all_eq_true, List.mem_append, List.mem_singleton]
  rintro s (hs | rfl)
  · exact hD s hs
  · exact hx

theorem nodots_snoc (D : List String) (x : String)
    (hD : ∀ s ∈ D, s ≠ "..") (hx : x ≠ "..") :
    ∀ s ∈ D ++ [x], s ≠ ".." := by
  simp only [List.mem_append, List.mem_singleton]
  rintro s (hs | rfl)
  · exact hD s hs
  · exact hx

theorem rejoin_confined (B u' : Url) (hBs : B.scheme = "file")
    (hBcb : B.cannotBeABase = false) (hu : FakeInv B.port u') :
    ∃ rel w, strictlyRelativeTo u' (mkFakeBase B) false = some rel ∧
      B.join rel = .ok w ∧ w.scheme = B.scheme ∧ w.host = B.host ∧
      w.port = B.port ∧ w.cannotBeABase = false ∧ B.path.dropLast <+: w.path := by
  obtain ⟨hsch, hhost, hport, hcb, hne, hclean, hq, hf⟩ := hu
  have hauth : u'.authority = (mkFakeBase B).authority := by
    unfold Url.authority mkFakeBase
    rw [hhost, hport]
  have hcond : ¬((u'.cannotBeABase || (mkFakeBase B).cannotBeABase
      || decide (u'.scheme ≠ (mkFakeBase B).scheme)
      || decide (u'.authority ≠ (mkFakeBase B).authority)
      || decide (u'.port ≠ (mkFakeBase B).port)) = true) := by
    simp [hcb, hsch, hauth, hport, mkFakeBase, hBs]
  have hstrict : strictlyRelativeTo u' (mkFakeBase B) false =
      (let selfFilename := filenameWithQuery u'
       let remaining := u'.path.dropLast
       let needsFilename := !remaining.isEmpty
         || decide (selfFilename ≠ ".asdjifjdsaiofjdoisa")
       let dotCanBeOmitted := !remaining.isEmpty
       let remaining :=
         if needsFilename = true then
           remaining ++
             [if (dotCanBeOmitted && decide (selfFilename = ".")) = true then ""
               else if startsWithDotQ selfFilename = true then trimLeadingDots selfFilename
               else selfFilename]
         else remaining
       let remaining :=
         match remaining with
         | "" :: rest => "./" :: rest
         | r => r
       let rel := joinWithSlash remaining
       some (match u'.fragment with
         | some f => rel ++ "#" ++ f
         | none => rel)) := by
    rw [strictlyRelativeTo, if_neg hcond]
    rfl
  have hfrag : ∀ rel : String, (match u'.fragment with
      | some f => rel ++ "#" ++ f
      | none => rel) = rel ++ fTailS u'.fragment := by
    intro rel
    cases u'.fragment with
    | none => exact (String.append_empty rel).symm
    | some fv =>
      show rel ++ "#" ++ fv = rel ++ fTailS (some fv)
      rw [fTailS, String.append_assoc]
  obtain ⟨last, hgl⟩ : ∃ a, u'.path.getLast? = some a := by
    cases hgl : u'.path.getLast? with
    | none => exact absurd (List.getLast?_eq_none_iff.mp hgl) hne
    | some a => exact ⟨a, rfl⟩
  have hlastclean : cleanSeg last = true := by
    simp only [List.all_eq_true] at hclean
    exact hclean last (List.mem_of_mem_getLast? hgl)
  have hlastok : segOk last = true := segOk_of_clean last hlastclean
  have hlastdots := ne_dots_of_clean last hlastclean
  have hDclean : ∀ s ∈ u'.path.dropLast, cleanSeg s = true := by
    simp only [List.all_eq_true] at hclean
    exact fun s hs => hclean s (List.dropLast_subset _ hs)
  rw [hstrict]
  simp only []
  cases hD : u'.path.dropLast with
  | nil =>
    simp only [List.isEmpty_nil, Bool.not_true, Bool.false_or, Bool.false_and,
      Bool.false_eq_true, if_false, List.nil_append]
    by_cases hsame : filenameWithQuery u' = ".asdjifjdsaiofjdoisa"
    · rw [hsame,
        show (decide ((".asdjifjdsaiofjdoisa" : String) ≠ ".asdjifjdsaiofjdoisa")) = false
          from by decide]
      simp only [Bool.false_eq_true, if_false]
      refine ⟨"" ++ fTailS u'.fragment, ?_⟩
      have hparse : parseRefChars ("" ++ fTailS u'.fragment).data
          = .ok (.queryFrag none u'.fragment) := by
        cases hfv : u'.fragment with
        | none => rfl
        | some fv =>
          rw [String.empty_append]
          have hdd : ("#" ++ fv).data = '#' :: fv.data := by
            rw [data_append]
            rfl
          rw [fTailS, hdd, parseRefChars_fOnly fv.data (by rw [hfv] at hf; exact hf), mk_data]
      refine ⟨{ B with fragment := u'.fragment }, by rw [hfrag]; rfl, ?_, rfl, rfl, rfl, hBcb, ?_⟩
      · rw [join_of_parse B _ _ hparse, joinRef_qf_none]
      · exact List.dropLast_prefix B.path
    · rw [show (decide (filenameWithQuery u' ≠ ".asdjifjdsaiofjdoisa")) = true
        from by simp [hsame]]
      simp only [if_true]
      by_cases hl0 : last = ""
      · rw [hl0] at hgl
        cases hqv : u'.query with
        | none =>
          have hsf : filenameWithQuery u' = "." := by
            rw [fwq_last_empty u' hgl, hqv]
          rw [hsf]
          rw [show startsWithDotQ "." = false from by decide]
          simp only [Bool.false_eq_true, if_false]
          refine ⟨joinWithSlash ["."] ++ fTailS u'.fragment, ?_⟩
          obtain ⟨w, hw1, hw2, hw3, hw4, hw5, hw6⟩ := rejoin_leaf B
            (joinWithSlash ["."] ++ fTailS u'.fragment) ["."] none u'.fragment hBcb
            (by rw [qTailS, String.append_empty]) (by simp) (by decide) (by decide)
            rfl hf (by decide)
          exact ⟨w, by rw [hfrag]; rfl, hw1, hw2, hw3, hw4, hw5, hw6⟩
        | some ql =>
          have hsf : filenameWithQuery u' = "." ++ "?" ++ ql := by
            rw [fwq_last_empty u' hgl, hqv]
          have hqlok : ql.data.all qfChar = true := by
            rw [hqv] at hq
            exact hq
          rw [hsf]
          have hsw : startsWithDotQ ("." ++ "?" ++ ql) = true := by
            unfold startsWithDotQ
            rw [data_seg_q]
            rfl
          rw [if_pos hsw]
          have htrimd : trimLeadingDots ("." ++ "?" ++ ql) = "?" ++ ql := by
            unfold trimLeadingDots
            rw [data_seg_q]
            show String.mk (List.dropWhile _ ('.' :: '?' :: ql.data)) = "?" ++ ql
            rw [List.dropWhile_cons_of_pos (by decide), List.dropWhile_cons_of_neg (by decide)]
            rfl
          rw [htrimd]
          have hhr : (match [("?" ++ ql : String)] with
              | "" :: rest => "./" :: rest
              | r => r) = ["?" ++ ql] := by
            refine headRewrite_of_ne ["?" ++ ql] ?_
            intro hcon
            have hcon2 := congrArg String.data (Option.some.inj hcon).symm
            rw [data_append] at hcon2
            simp at hcon2
          rw [hhr]
          refine ⟨joinWithSlash ["?" ++ ql] ++ fTailS u'.fragment, ?_⟩
          refine ⟨{ B with query := some ql, fragment := u'.fragment }, by rw [hfrag], ?_,
            rfl, rfl, rfl, hBcb, List.dropLast_prefix B.path⟩
          have hds : ((("?" ++ ql) : String) ++ fTailS u'.fragment).data
              = '?' :: (ql.data ++ optF (u'.fragment.map String.data)) := by
            cases hfv : u'.fragment with
            | none =>
              rw [fTailS, String.append_empty, data_append]
              simp [optF]
            | some fv =>
              rw [fTailS, data_append, data_append, data_append]
              simp [optF]
          have hparse : parseRefChars (joinWithSlash ["?" ++ ql] ++ fTailS u'.fragment).data
              = .ok (.queryFrag (some ql) u'.fragment) := by
            show parseRefChars ((("?" ++ ql) : String) ++ fTailS u'.fragment).data = _
            rw [hds, parseRefChars_qOnly ql.data (u'.fragment.map String.data) hqlok
              (fragOk_map _ hf), mk_data, map_mk_data]
          rw [join_of_parse B _ _ hparse, joinRef_qf_some B ql u'.fragment (by simp [hBcb])]
      · cases hqv : u'.query with
        | none =>
          have hsf : filenameWithQuery u' = last := by
            rw [fwq_last_ne u' last hgl hl0, hqv]
          rw [hsf]
          rw [startsWithDotQ_of_segOk last hlastok]
          simp only [Bool.false_eq_true, if_false]
          have hhr : (match [last] with
              | "" :: rest => "./" :: rest
              | r => r) = [last] := by
            refine headRewrite_of_ne _ ?_
            intro hcon
            exact hl0 (Option.some.inj hcon)
          rw [hhr]
          refine ⟨joinWithSlash [last] ++ fTailS u'.fragment, ?_⟩
          obtain ⟨w, hw1, hw2, hw3, hw4, hw5, hw6⟩ := rejoin_leaf B
            (joinWithSlash [last] ++ fTailS u'.fragment) [last] none u'.fragment hBcb
            (by rw [qTailS, String.append_empty]) (by simp) (by simp [hlastok])
            (by simp [hlastdots.2]) rfl hf (by simp [hl0])
          exact ⟨w, by rw [hfrag], hw1, hw2, hw3, hw4, hw5, hw6⟩
        | some ql =>
          have hsf : filenameWithQuery u' = last ++ "?" ++ ql := by
            rw [fwq_last_ne u' last hgl hl0, hqv]
          rw [hsf]
          rw [startsWithDotQ_seg_q last ql hlastok hl0 hlastdots.1]
          simp only [Bool.false_eq_true, if_false]
          have hne'' : (last ++ "?" ++ ql) ≠ "" := by
            intro hcon
            have hd := congrArg String.data hcon
            rw [data_seg_q] at hd
            cases hdd : last.data with
            | nil => rw [hdd] at hd; simp at hd
            | cons a b => rw [hdd] at hd; simp at hd
          have hhr : (match [last ++ "?" ++ ql] with
              | "" :: rest => "./" :: rest
              | r => r) = [last ++ "?" ++ ql] := by
            refine headRewrite_of_ne _ ?_
            intro hcon
            exact hne'' (Option.some.inj hcon)
          rw [hhr]
          refine ⟨joinWithSlash [last ++ "?" ++ ql] ++ fTailS u'.fragment, ?_⟩
          obtain ⟨w, hw1, hw2, hw3, hw4, hw5, hw6⟩ := rejoin_leaf B
            (joinWithSlash [last ++ "?" ++ ql] ++ fTailS u'.fragment) [last] (some ql)
            u'.fragment hBcb
            (by show (last ++ "?" ++ ql) ++ fTailS u'.fragment = _
                rw [show joinWithSlash [last] = last from rfl, qTailS,
                  String.append_assoc last])
            (by simp) (by simp [hlastok]) (by simp [hlastdots.2])
            (by rw [← hqv]; exact hq) hf (by simp [hl0])
          exact ⟨w, by rw [hfrag], hw1, hw2, hw3, hw4, hw5, hw6⟩
  | cons d ds =>
    have hdclean : cleanSeg d = true := hDclean d (by rw [hD]; simp)
    have hconsclean : ∀ s ∈ d :: ds, cleanSeg s = true := by
      intro s hs
      exact hDclean s (by rw [hD]; exact hs)
    have hconsOk : ∀ s ∈ d :: ds, segOk s = true :=
      fun s hs => segOk_of_clean s (hconsclean s hs)
    have hconsND : ∀ s ∈ d :: ds, s ≠ ".." :=
      fun s hs => (ne_dots_of_clean s (hconsclean s hs)).2
    have hdotOk : ∀ s ∈ ("." :: "" :: ds : List String), segOk s = true := by
      intro s hs
      rcases List.mem_cons.mp hs with rfl | hs2
      · decide
      rcases List.mem_cons.mp hs2 with rfl | hs3
      · decide
      · exact hconsOk s (by simp [hs3])
    have hdotND : ∀ s ∈ ("." :: "" :: ds : List String), s ≠ ".." := by
      intro s hs
      rcases List.mem_cons.mp hs with rfl | hs2
      · decide
      rcases List.mem_cons.mp hs2 with rfl | hs3
      · decide
      · exact hconsND s (by simp [hs3])
    simp only [List.isEmpty_cons, Bool.not_false, Bool.true_or, Bool.true_and,
      eq_self_iff_true, if_true]
    have hfin : ∀ (fnPath : String) (q : Option String) (fn : String),
        fn = fnPath ++ qTailS q →
        segOk fnPath = true → fnPath ≠ ".." → queryOk q = true →
        (∃ rel w, some (match u'.fragment with
            | some f => joinWithSlash (match (d :: ds) ++ [fn] with
                | "" :: rest => "./" :: rest
                | r => r) ++ "#" ++ f
            | none => joinWithSlash (match (d :: ds) ++ [fn] with
                | "" :: rest => "./" :: rest
                | r => r)) = some rel ∧
          B.join rel = .ok w ∧ w.scheme = B.scheme ∧ w.host = B.host ∧
          w.port = B.port ∧ w.cannotBeABase = false ∧ B.path.dropLast <+: w.path) := by
      intro fnPath q fn hfn hok hnd hq2
      have hsplitq : ∀ X : List String,
          joinWithSlash (X ++ [fnPath ++ qTailS q])
            = joinWithSlash (X ++ [fnPath]) ++ qTailS q := by
        intro X
        cases q with
        | none => simp [qTailS, String.append_empty]
        | some ql =>
          rw [qTailS]
          exact joinWithSlash_append_last X fnPath ("?" ++ ql)
      by_cases hd0 : d = ""
      · rw [hd0]
        have hm : (match ("" :: ds) ++ [fn] with
            | "" :: rest => "./" :: rest
            | r => r) = "./" :: (ds ++ [fn]) := by
          rw [List.cons_append]
          rfl
        rw [hm, joinWithSlash_dotSlash]
        have hjs : joinWithSlash ("." :: "" :: (ds ++ [fn]))
            = joinWithSlash (("." :: "" :: ds) ++ [fn]) := by
          rw [List.cons_append, List.cons_append]
        rw [hjs, hfn, hsplitq ("." :: "" :: ds)]
        refine ⟨(joinWithSlash (("." :: "" :: ds) ++ [fnPath]) ++ qTailS q)
          ++ fTailS u'.fragment, ?_⟩
        obtain ⟨w, hw1, hw2, hw3, hw4, hw5, hw6⟩ := rejoin_leaf B
          ((joinWithSlash (("." :: "" :: ds) ++ [fnPath]) ++ qTailS q) ++ fTailS u'.fragment)
          (("." :: "" :: ds) ++ [fnPath]) q u'.fragment hBcb rfl (by simp)
          (all_segOk_snoc _ fnPath hdotOk hok) (nodots_snoc _ fnPath hdotND hnd)
          hq2 hf (by simp)
        exact ⟨w, by rw [hfrag], hw1, hw2, hw3, hw4, hw5, hw6⟩
      · have hm : (match (d :: ds) ++ [fn] with
            | "" :: rest => "./" :: rest
            | r => r) = (d :: ds) ++ [fn] := by
          refine headRewrite_of_ne _ ?_
          intro hcon
          exact hd0 (Option.some.inj (by simpa using hcon))
        rw [hm, hfn, hsplitq (d :: ds)]
        refine ⟨(joinWithSlash ((d :: ds) ++ [fnPath]) ++ qTailS q)
          ++ fTailS u'.fragment, ?_⟩
        obtain ⟨w, hw1, hw2, hw3, hw4, hw5, hw6⟩ := rejoin_leaf B
          ((joinWithSlash ((d :: ds) ++ [fnPath]) ++ qTailS q) ++ fTailS u'.fragment)
          ((d :: ds) ++ [fnPath]) q u'.fragment hBcb rfl (by simp)
          (all_segOk_snoc _ fnPath hconsOk hok) (nodots_snoc _ fnPath hconsND hnd)
          hq2 hf (by simp [hd0])
        exact ⟨w, by rw [hfrag], hw1, hw2, hw3, hw4, hw5, hw6⟩
    by_cases hl0 : last = ""
    · rw [hl0] at hgl
      cases hqv : u'.query with
      | none =>
        have hsf : filenameWithQuery u' = "." := by
          rw [fwq_last_empty u' hgl, hqv]
        rw [hsf, if_pos (by decide : (decide (("." : String) = ".")) = true)]
        exact hfin "" none "" rfl (by decide) (by decide) rfl
      | some ql =>
        have hsf : filenameWithQuery u' = "." ++ "?" ++ ql := by
          rw [fwq_last_empty u' hgl, hqv]
        rw [hsf, if_neg (by
          intro hcon
          exact seg_q_ne_dot "." ql (by decide) (of_decide_eq_true hcon) :
          ¬((decide (("." ++ "?" ++ ql) = ".")) = true))]
        have hsw : startsWithDotQ ("." ++ "?" ++ ql) = true := by
          unfold startsWithDotQ
          rw [data_seg_q]
          rfl
        rw [if_pos hsw]
        have htrimd : trimLeadingDots ("." ++ "?" ++ ql) = "?" ++ ql := by
          unfold trimLeadingDots
          rw [data_seg_q]
          show String.mk (List.dropWhile _ ('.' :: '?' :: ql.data)) = "?" ++ ql
          rw [List.dropWhile_cons_of_pos (by decide), List.dropWhile_cons_of_neg (by decide)]
          rfl
        rw [htrimd]
        exact hfin "" (some ql) ("?" ++ ql) (String.empty_append ("?" ++ ql)).symm
          (by decide) (by decide) (by rw [← hqv]; exact hq)
    · cases hqv : u'.query with
      | none =>
        have hsf : filenameWithQuery u' = last := by
          rw [fwq_last_ne u' last hgl hl0, hqv]
        rw [hsf, if_neg (by simp [hlastdots.1] : ¬((decide (last = ".")) = true)),
          startsWithDotQ_of_segOk last hlastok]
        simp only [Bool.false_eq_true, if_false]
        exact hfin last none last (String.append_empty last).symm hlastok hlastdots.2 rfl
      | some ql =>
        have hsf : filenameWithQuery u' = last ++ "?" ++ ql := by
          rw [fwq_last_ne u' last hgl hl0, hqv]
        rw [hsf, if_neg (by
          intro hcon
          exact seg_q_ne_dot last ql hl0 (of_decide_eq_true hcon) :
          ¬((decide ((last ++ "?" ++ ql) = ".")) = true)),
          startsWithDotQ_seg_q last ql hlastok hl0 hlastdots.1]
        simp only [Bool.false_eq_true, if_false]
        exact hfin last (some ql) (last ++ "?" ++ ql) (String.append_assoc last "?" ql)
          hlastok hlastdots.2 (by rw [← hqv]; exact hq)

theorem joinRef_rootRel_ok (B : Url) (segs : List String) (q f : Option String)
    (hcb : ¬B.cannotBeABase = true) :
    joinRef B (.rootRel segs q f)
      = .ok ⟨B.scheme, B.host, B.port, resolveDots [] segs, q, f, false⟩ := by
  simp only [joinRef]
  rw [if_neg hcb]

/-- Confinement of `join_rooted` for `file:` bases: over relative
subpaths (with arbitrarily many `..` segments), the join succeeds,
preserves the base's scheme, authority and port, and the resulting path
stays below the base's own directory. -/
theorem joinRooted_file_confined (B : Url) (sp : List String)
    (hBs : B.scheme = "file") (hBcb : B.cannotBeABase = false)
    (hsp : ∀ s ∈ sp, relInput s = true) :
    ∃ w, B.joinRooted sp = .ok w ∧ w.scheme = B.scheme ∧ w.host = B.host ∧
      w.port = B.port ∧ B.path.dropLast <+: w.path := by
  have hparse1 : parseRefChars ("/.asdjifjdsaiofjdoisa".data)
      = .ok (.rootRel [".asdjifjdsaiofjdoisa"] none none) := rfl
  have h1 : B.join "/.asdjifjdsaiofjdoisa"
      = .ok ⟨B.scheme, B.host, B.port, [".asdjifjdsaiofjdoisa"], none, none, false⟩ := by
    rw [join_of_parse B _ _ hparse1, joinRef_rootRel_ok B _ _ _ (by simp [hBcb])]
    rfl
  have hfr : (if B.scheme = "file" then
        match B.join "/.asdjifjdsaiofjdoisa" with
        | .error e => .error e
        | .ok fb =>
          match fb.setHost "secret-lychee-base-url.invalid" with
          | .error e => .error e
          | .ok fb' => .ok (some fb')
      else .ok none) = (.ok (some (mkFakeBase B)) : Except ParseError (Option Url)) := by
    rw [if_pos hBs, h1]
    rfl
  have hfake : FakeInv B.port (mkFakeBase B) :=
    ⟨hBs, rfl, rfl, rfl, by simp [mkFakeBase],
      by show ([".asdjifjdsaiofjdoisa"] : List String).all cleanSeg = true; decide, rfl, rfl⟩
  obtain ⟨u', hfold, hu'⟩ := foldJoin_relInput B.port sp (mkFakeBase B) hfake hsp
  obtain ⟨rel, w, hstr, hjoin, hws, hwh, hwp, hwc, hwpre⟩ := rejoin_confined B u' hBs hBcb hu'
  refine ⟨w, ?_, hws, hwh, hwp, hwpre⟩
  unfold Url.joinRooted
  rw [hfr]
  show (match foldJoin (mkFakeBase B) sp with
    | .error e => (.error e : Except ParseError Url)
    | .ok url =>
      match (some (mkFakeBase B)).bind (fun b => strictlyRelativeTo url b false) with
      | some rel => B.join rel
      | none => .ok url) = .ok w
  rw [hfold]
  show (match strictlyRelativeTo u' (mkFakeBase B) false with
    | some rel => B.join rel
    | none => (.ok u' : Except ParseError Url)) = .ok w
  rw [hstr]
  exact hjoin

/-! ## Pipeline lemmas -/

theorem uriTryFrom_relInput (text : String) (h : relInput text = true) :
    uriTryFrom text = .error (.ParseUrl .RelativeUrlWithoutBase text) := by
  unfold relInput at h
  unfold uriTryFrom urlParse
  cases hp : parseRefChars text.data with
  | error e => rw [hp] at h; simp at h
  | ok r =>
    rw [hp] at h
    cases r with
    | abs u => simp at h
    | schemeRel h2 p2 segs q f => simp at h
    | rootRel segs q f => rfl
    | pathRel segs q f => rfl
    | queryFrag q f => rfl

theorem uriTryFrom_rootRelative (text : String) (h : isRootRelative text = true) :
    uriTryFrom text = .error (.ParseUrl .RelativeUrlWithoutBase text) := by
  obtain ⟨rest', htc, hp⟩ := parseRefChars_rootRel text h
  unfold uriTryFrom urlParse
  rw [hp]

theorem parseUrlText_NoRoot_rootRel (u : Url) (text : String)
    (h : isRootRelative text = true) :
    parseUrlText (.NoRoot u) text none = .error (.InvalidBaseJoin text) := by
  unfold parseUrlText
  rw [uriTryFrom_rootRelative text h, h]
  rfl

theorem parseUrlText_Full_ok (origin : Url) (sub text : String)
    (hos : origin.scheme = "file") (hocb : origin.cannotBeABase = false)
    (hsub : relInput sub = true) (htext : relInput text = true) :
    ∃ w, parseUrlText (.Full origin sub) text none = .ok w ∧
      w.scheme = origin.scheme ∧ w.host = origin.host ∧ w.port = origin.port ∧
      origin.path.dropLast <+: w.path := by
  have hsp : ∀ s ∈ [sub, text], relInput s = true := by
    intro s hs
    rcases List.mem_cons.mp hs with rfl | hs
    · exact hsub
    · rcases List.mem_singleton.mp hs with rfl
      exact htext
  obtain ⟨w, hw, h2, h3, h4, h5⟩ := joinRooted_file_confined origin [sub, text] hos hocb hsp
  refine ⟨w, ?_, h2, h3, h4, h5⟩
  unfold parseUrlText
  rw [uriTryFrom_relInput text htext]
  show (match (match origin.joinRooted [sub, text] with
      | .ok u => (.ok u : Except ErrorKind Url)
      | .error pe => .error (.ParseUrl pe text)) with
    | .error e => (.error e : Except ErrorKind Url)
    | .ok url => .ok url) = .ok w
  rw [hw]

theorem strictly_under_root (r init : List String) (last : String)
    (hplain : ∀ x ∈ init ++ [last], segOk x = true ∧ x ≠ "" ∧ x ≠ "." ∧ x ≠ "..") :
    strictlyRelativeTo ⟨"file", some "", none, r ++ (init ++ [last]), none, none, false⟩
      ⟨"file", some "", none, r ++ [""], none, none, false⟩ false
      = some (joinWithSlash (init ++ [last])) := by
  have hlast := hplain last (by simp)
  rw [strictlyRelativeTo, if_neg (by simp [Url.authority])]
  have h1 : (⟨"file", some "", none, r ++ [""], none, none, false⟩ : Url).path.dropLast
      = r := by
    show (r ++ [""]).dropLast = r
    exact List.dropLast_concat
  have h2 : (⟨"file", some "", none, r ++ (init ++ [last]), none, none,
      false⟩ : Url).path.dropLast = r ++ init := by
    show (r ++ (init ++ [last])).dropLast = r ++ init
    rw [← List.append_assoc]
    exact List.dropLast_concat
  have hbf : filenameWithQuery ⟨"file", some "", none, r ++ [""], none, none, false⟩
      = "." := by
    rw [fwq_last_empty _ (show (r ++ [""]).getLast? = some "" from List.getLast?_concat r)]
  have hsf : filenameWithQuery ⟨"file", some "", none, r ++ (init ++ [last]), none, none,
      false⟩ = last := by
    rw [fwq_last_ne _ last (show (r ++ (init ++ [last])).getLast? = some last from by
      rw [← List.append_assoc]; exact List.getLast?_concat _) hlast.2.1]
  rw [h1, h2, hbf, hsf, stripCommonPre_self_append r init]
  have hdne : decide (last ≠ ".") = true := by simp [hlast.2.2.1]
  have hdeq : decide (last = ".") = false := by simp [hlast.2.2.1]
  have hhead : (init ++ [last]).head? ≠ some "" := by
    cases init with
    | nil =>
      simp only [List.nil_append, List.head?]
      intro hcon
      exact hlast.2.1 (by simpa using hcon)
    | cons a as =>
      have ha := hplain a (by simp)
      simp only [List.cons_append, List.head?]
      intro hcon
      exact ha.2.1 (by simpa using hcon)
  simp only [List.map_nil, List.nil_append, List.isEmpty_nil, Bool.not_true,
    Bool.false_and, hdne, hdeq, Bool.or_true, Bool.and_false,
    startsWithDotQ_of_segOk last hlast.1, Bool.false_eq_true, if_true, if_false]
  rw [headRewrite_of_ne (init ++ [last]) hhead]

theorem relInput_joinWithSlash (s : List String) (hs : s ≠ [])
    (hall : s.all segOk = true) (hhead : s.head? ≠ some "") :
    relInput (joinWithSlash s) = true := by
  have h := parseRefChars_built s none none hs hall rfl rfl hhead
  simp only [optQ, optF, List.append_nil, Option.map_none'] at h
  unfold relInput
  rw [h]
  simp only [Bool.and_eq_true]
  refine ⟨⟨⟨?_, hall⟩, rfl⟩, rfl⟩
  cases s with
  | nil => exact absurd rfl hs
  | cons a as => rfl

/-! ## Claim theorems -/

theorem UrlMappings_new_pair_self (u : Url) :
    UrlMappings.new [(u, u)] = .ok ⟨[(u, u)]⟩ := by
  unfold UrlMappings.new
  rw [List.find?_cons_of_neg]
  · rfl
  · intro hcon
    rw [if_pos rfl] at hcon
    exact absurd hcon (by simp)

/-- C1: for every `file:` base URL `B` (with relative subpath texts, which
include arbitrarily many `..` segments), `join_rooted` returns `Ok` of a
URL whose path stays under `B`'s own root path (`B`'s directory segments
are a prefix of the result's path); in particular
`join_rooted(file:///a/b/, ["../.."])` yields `file:///a/b/`, not
`file:///`. -/
theorem C1_joinRooted_never_escapes_root (B : Url) (sp : List String)
    (hBs : B.scheme = "file") (hBcb : B.cannotBeABase = false)
    (hsp : ∀ s ∈ sp, relInput s = true) :
    (∃ w, B.joinRooted sp = .ok w ∧ B.path.dropLast <+: w.path) ∧
      Url.joinRooted ⟨"file", some "", none, ["a", "b", ""], none, none, false⟩ ["../.."]
        = .ok ⟨"file", some "", none, ["a", "b", ""], none, none, false⟩ := by
  refine ⟨?_, by decide⟩
  obtain ⟨w, h1, _, _, _, h5⟩ := joinRooted_file_confined B sp hBs hBcb hsp
  exact ⟨w, h1, h5⟩

/-- Witness for C1 at `B = file:///a/b/`, `subpaths = ["../..", "x"]`. -/
theorem C1_witness :
    (∀ s ∈ (["../..", "x"] : List String), relInput s = true) ∧
    ((∃ w, Url.joinRooted ⟨"file", some "", none, ["a", "b", ""], none, none, false⟩
          ["../..", "x"] = .ok w ∧
        (⟨"file", some "", none, ["a", "b", ""], none, none,
          false⟩ : Url).path.dropLast <+: w.path) ∧
      Url.joinRooted ⟨"file", some "", none, ["a", "b", ""], none, none, false⟩ ["../.."]
        = .ok ⟨"file", some "", none, ["a", "b", ""], none, none, false⟩) :=
  ⟨by decide, C1_joinRooted_never_escapes_root
    ⟨"file", some "", none, ["a", "b", ""], none, none, false⟩
    ["../..", "x"] rfl rfl (by decide)⟩

/-- C2 counterexample: over a `file:` base, a scheme-relative subpath
(`//host/path`) replaces the authority, so the result does not share the
base's authority (mirrors the `file:///root/` + `//a.com/boop` test row). -/
theorem C2_counterexample :
    ∃ u, Url.joinRooted ⟨"file", some "", none, ["root", ""], none, none, false⟩
        ["//a.com/boop"] = .ok u ∧
      u.authority ≠ (⟨"file", some "", none, ["root", ""], none, none,
        false⟩ : Url).authority :=
  ⟨⟨"file", some "a.com", none, ["boop"], none, none, false⟩, by decide, by decide⟩

/-- C2 (amended): over a `file:` base, `join_rooted` preserves the base's
scheme and authority, and keeps the path under the base's root, for
relative subpath texts (no scheme and no `//authority` prefix) — not for
arbitrary subpaths such as scheme-relative text. -/
theorem C2_authority_preserved (B : Url) (sp : List String)
    (hBs : B.scheme = "file") (hBcb : B.cannotBeABase = false)
    (hsp : ∀ s ∈ sp, relInput s = true) :
    ∃ w, B.joinRooted sp = .ok w ∧ w.scheme = B.scheme ∧
      w.authority = B.authority ∧ B.path.dropLast <+: w.path := by
  obtain ⟨w, h1, h2, h3, h4, h5⟩ := joinRooted_file_confined B sp hBs hBcb hsp
  refine ⟨w, h1, h2, ?_, h5⟩
  unfold Url.authority
  rw [h3, h4]

/-- Witness for C2 at `B = file:///a/b/`, `subpaths = ["a/", "../.."]`. -/
theorem C2_witness :
    ∃ w, Url.joinRooted ⟨"file", some "", none, ["a", "b", ""], none, none, false⟩
        ["a/", "../.."] = .ok w ∧
      w.scheme = (⟨"file", some "", none, ["a", "b", ""], none, none,
        false⟩ : Url).scheme ∧
      w.authority = (⟨"file", some "", none, ["a", "b", ""], none, none,
        false⟩ : Url).authority ∧
      (⟨"file", some "", none, ["a", "b", ""], none, none,
        false⟩ : Url).path.dropLast <+: w.path :=
  C2_authority_preserved ⟨"file", some "", none, ["a", "b", ""], none, none, false⟩
    ["a/", "../.."] rfl rfl (by decide)

/-- C4: the claimed right-inverse law fails.  With
`u = https://a.com/?q` and `base = https://a.com/x` (same scheme and
authority), `strictly_relative_to` returns `Some "?q"` for either
`traverse_up` flag, but `base.join("?q") = https://a.com/x?q ≠ u`: the
`.?`-trimming of `filename_with_query` drops the `.` that would have
removed the base's filename (the `XXX: still broken` row of
`test_join_rooted`). -/
theorem C4_inverse_law_fails :
    strictlyRelativeTo ⟨"https", some "a.com", none, [""], some "q", none, false⟩
        ⟨"https", some "a.com", none, ["x"], none, none, false⟩ false = some "?q" ∧
    strictlyRelativeTo ⟨"https", some "a.com", none, [""], some "q", none, false⟩
        ⟨"https", some "a.com", none, ["x"], none, none, false⟩ true = some "?q" ∧
    Url.join ⟨"https", some "a.com", none, ["x"], none, none, false⟩ "?q"
        = .ok ⟨"https", some "a.com", none, ["x"], some "q", none, false⟩ ∧
    (⟨"https", some "a.com", none, ["x"], some "q", none, false⟩ : Url)
        ≠ ⟨"https", some "a.com", none, [""], some "q", none, false⟩ := by
  refine ⟨by decide, by decide, by decide, by decide⟩

/-- C5: `map_to_new_url` returns, for the first pair (in declaration
order) whose local (right) side has the URL as a strict path-descendant,
the remote (left) side together with the computed subpath; and under the
mapping `(remote = https://a.com/, local = file:///root/)` with a
`file:///root/index.html` source, the link `sub/page.html` — which lands
on `file:///root/sub/page.html` — is rewritten by
`parse_url_with_base_info` to `https://a.com/sub/page.html`. -/
theorem C5_mapToNewUrl_first_match :
    (∀ (pre post : List (Url × Url)) (p : Url × Url) (url : Url) (s : String),
      (∀ q ∈ pre, strictlyRelativeTo url q.2 false = none) →
      strictlyRelativeTo url p.2 false = some s →
      UrlMappings.mapToNewUrl ⟨pre ++ p :: post⟩ url = some (p.1, s)) ∧
    parseUrlWithBaseInfo
        (.NoRoot ⟨"file", some "", none, ["root", "index.html"], none, none, false⟩)
        ⟨[(⟨"https", some "a.com", none, [""], none, none, false⟩,
           ⟨"file", some "", none, ["root", ""], none, none, false⟩)]⟩
        "sub/page.html"
      = .ok ⟨⟨"https", some "a.com", none, ["sub", "page.html"], none, none, false⟩⟩ := by
  constructor
  · intro pre post p url s hpre hp
    unfold UrlMappings.mapToNewUrl
    induction pre with
    | nil =>
      simp only [List.nil_append, List.findSome?_cons, hp, Option.map_some']
    | cons a as ih =>
      rw [List.cons_append, List.findSome?_cons, hpre a (by simp), Option.map_none']
      exact ih (fun q hq => hpre q (List.mem_cons_of_mem a hq))
  · decide

/-- Witness for C5's first-match law at the scenario's mapping, with an
empty prefix and suffix of pairs. -/
theorem C5_witness :
    UrlMappings.mapToNewUrl
        ⟨[] ++ (⟨"https", some "a.com", none, [""], none, none, false⟩,
            ⟨"file", some "", none, ["root", ""], none, none, false⟩) :: []⟩
        ⟨"file", some "", none, ["root", "sub", "page.html"], none, none, false⟩
      = some (⟨"https", some "a.com", none, [""], none, none, false⟩, "sub/page.html") :=
  C5_mapToNewUrl_first_match.1 [] []
    (⟨"https", some "a.com", none, [""], none, none, false⟩,
      ⟨"file", some "", none, ["root", ""], none, none, false⟩)
    ⟨"file", some "", none, ["root", "sub", "page.html"], none, none, false⟩
    "sub/page.html" (fun q hq => absurd hq (List.not_mem_nil q)) (by decide)

/-- C6 counterexample: a `file:` fallback base does not override a
non-well-founded source base.  For a bare `file:` source with a `file:`
fallback, `from_source_url` gives `NoRoot` for the fallback too,
`or_fallback` keeps the source's own `NoRoot`, and root-relative text is
still rejected — the fallback is not "always considered well-founded". -/
theorem C6_counterexample :
    prepareSourceBaseInfo (.FsPath ["a", "page.html"]) none
        (some (.Remote ⟨"file", some "", none, ["fb", ""], none, none, false⟩))
      = .ok (.NoRoot ⟨"file", some "", none, ["a", "page.html"], none, none, false⟩,
          ⟨[]⟩) ∧
    (SourceBaseInfo.NoRoot ⟨"file", some "", none, ["a", "page.html"], none, none,
        false⟩).supportsRootRelative = false ∧
    parseUrlText
        (.NoRoot ⟨"file", some "", none, ["a", "page.html"], none, none, false⟩)
        "/x" none
      = .error (.InvalidBaseJoin "/x") := by
  refine ⟨by decide, by decide, by decide⟩

/-- C7 counterexample: two distinct pairs whose remote sides nest
(`https://a.com/x` is a strict path-prefix of `https://a.com/x/y`, as
`strictly_relative_to` itself witnesses) are accepted by
`UrlMappings::new`: the constructor checks nesting only within each single
pair, not across pairs. -/
theorem C7_counterexample :
    (strictlyRelativeTo ⟨"https", some "a.com", none, ["x", "y"], none, none, false⟩
        ⟨"https", some "a.com", none, ["x"], none, none, false⟩ false).isSome = true ∧
    UrlMappings.new
        [(⟨"https", some "a.com", none, ["x"], none, none, false⟩,
          ⟨"file", some "", none, ["r1", ""], none, none, false⟩),
         (⟨"https", some "a.com", none, ["x", "y"], none, none, false⟩,
          ⟨"file", some "", none, ["r2", ""], none, none, false⟩)]
      = .ok ⟨[(⟨"https", some "a.com", none, ["x"], none, none, false⟩,
          ⟨"file", some "", none, ["r1", ""], none, none, false⟩),
         (⟨"https", some "a.com", none, ["x", "y"], none, none, false⟩,
          ⟨"file", some "", none, ["r2", ""], none, none, false⟩)]⟩ := by
  refine ⟨by decide, by decide⟩

/-- C8 counterexample: under the `None` base, root-relative text is
rejected with the original parse error, not with `InvalidBaseJoin`. -/
theorem C8_counterexample :
    parseUrlText .None "/x" none
        = .error (.ParseUrl .RelativeUrlWithoutBase "/x") ∧
    parseUrlText .None "/x" none ≠ .error (.InvalidBaseJoin "/x") := by
  refine ⟨by decide, by decide⟩

/-- C8 (amended): with no base available (the `None` variant), every text
that does not parse as an absolute URL — root-relative or not — fails with
the original parse error, never with `InvalidBaseJoin`. -/
theorem C8_none_original_error (text : String) (e : ErrorKind)
    (h : uriTryFrom text = .error e) :
    parseUrlText .None text none = .error e := by
  cases e with
  | ParseUrl pe t => unfold parseUrlText; rw [h]
  | InvalidBase b reason => unfold parseUrlText; rw [h]
  | InvalidBaseJoin t => unfold parseUrlText; rw [h]

/-- Witness for C8 at the root-relative text `/x`. -/
theorem C8_witness :
    parseUrlText .None "/x" none = .error (.ParseUrl .RelativeUrlWithoutBase "/x") :=
  C8_none_original_error "/x" (.ParseUrl .RelativeUrlWithoutBase "/x") (by decide)

/-- C10: `or_fallback` has `None` as a two-sided identity; the variant of
`x.or_fallback(y)` is the maximum of the variants in the order
`None < NoRoot < Full`; and when both sides have the same variant the
left argument wins. -/
theorem C10_orFallback_lattice :
    (∀ x : SourceBaseInfo, x.orFallback .None = x ∧
      SourceBaseInfo.None.orFallback x = x) ∧
    (∀ x y : SourceBaseInfo,
      variantRank (x.orFallback y) = max (variantRank x) (variantRank y)) ∧
    (∀ x y : SourceBaseInfo, variantRank x = variantRank y → x.orFallback y = x) := by
  refine ⟨fun x => ?_, fun x y => ?_, fun x y h => ?_⟩
  · cases x <;> exact ⟨rfl, rfl⟩
  · cases x <;> cases y <;> rfl
  · cases x <;> cases y <;> first | rfl | (exfalso; simp [variantRank] at h)

/-- Witness for C10's same-variant law at two distinct `NoRoot` values. -/
theorem C10_witness :
    variantRank (.NoRoot ⟨"file", some "", none, ["a"], none, none, false⟩)
        = variantRank (.NoRoot ⟨"https", some "h", none, [""], none, none, false⟩) ∧
    SourceBaseInfo.orFallback
        (.NoRoot ⟨"file", some "", none, ["a"], none, none, false⟩)
        (.NoRoot ⟨"https", some "h", none, [""], none, none, false⟩)
      = .NoRoot ⟨"file", some "", none, ["a"], none, none, false⟩ :=
  ⟨rfl, C10_orFallback_lattice.2.2
    (.NoRoot ⟨"file", some "", none, ["a"], none, none, false⟩)
    (.NoRoot ⟨"https", some "h", none, [""], none, none, false⟩) rfl⟩

/-- C7 (amended): `UrlMappings::new` checks nesting only within each
single pair: it succeeds (returning the pairs unchanged) exactly when
every pair either has equal sides or has neither side a strict
path-descendant of the other; a pair with equal sides is accepted, and
the spec's nested single pair `(https://a.com/x, https://a.com/x/y)` is
rejected with `InvalidBase`.  Distinct pairs are never compared. -/
theorem C7_new_within_pair (ms : List (Url × Url)) (u : Url) :
    (UrlMappings.new ms = .ok ⟨ms⟩ ↔
      ∀ p ∈ ms, p.1 = p.2 ∨
        ((strictlyRelativeTo p.1 p.2 false).isSome = false ∧
          (strictlyRelativeTo p.2 p.1 false).isSome = false)) ∧
    UrlMappings.new [(u, u)] = .ok ⟨[(u, u)]⟩ ∧
    UrlMappings.new [(⟨"https", some "a.com", none, ["x"], none, none, false⟩,
        ⟨"https", some "a.com", none, ["x", "y"], none, none, false⟩)]
      = .error (.InvalidBase "https://a.com/x"
          ("base cannot be parent or child of root-dir https://a.com/x/y")) := by
  refine ⟨?_, UrlMappings_new_pair_self u, by decide⟩
  unfold UrlMappings.new
  constructor
  · intro h p hp
    cases hfd : ms.find? (fun p =>
        if p.1 = p.2 then false
        else (strictlyRelativeTo p.1 p.2 false).isSome
          || (strictlyRelativeTo p.2 p.1 false).isSome) with
    | some q => rw [hfd] at h; exact absurd h (by simp)
    | none =>
      have hnp := List.find?_eq_none.mp hfd p hp
      by_cases hpq : p.1 = p.2
      · exact Or.inl hpq
      · right
        rw [if_neg hpq] at hnp
        simp only [Bool.or_eq_true, not_or, Bool.not_eq_true] at hnp
        exact hnp
  · intro h
    have hfd : ms.find? (fun p =>
        if p.1 = p.2 then false
        else (strictlyRelativeTo p.1 p.2 false).isSome
          || (strictlyRelativeTo p.2 p.1 false).isSome) = none := by
      refine List.find?_eq_none.mpr fun p hp => ?_
      by_cases hpq : p.1 = p.2
      · rw [if_pos hpq]
        simp
      · rw [if_neg hpq]
        rcases h p hp with hpq' | ⟨h1, h2⟩
        · exact absurd hpq' hpq
        · rw [h1, h2]
          simp
    rw [hfd]

/-- C6 (amended): a fallback base whose URL is not a `file:` URL (and can
be a base) does override a non-well-founded source base: `from_source_url`
splits it into an origin and subpath, `or_fallback` promotes the result
over the source's `NoRoot`, and the resulting `Full` base supports
root-relative links. -/
theorem C6_fallback_override_nonfile (p : List String) (fu : Url)
    (hs : ¬fu.scheme = "file") (hcb : fu.cannotBeABase = false) :
    ∃ origin sub,
      prepareSourceBaseInfo (.FsPath p) none (some (.Remote fu))
        = .ok (.Full origin sub, ⟨[]⟩) ∧
      (SourceBaseInfo.Full origin sub).supportsRootRelative = true := by
  have htoUrl : (Base.Remote fu).toUrl = .ok fu := by
    show (if fu.cannotBeABase = true
        then Except.error (ErrorKind.InvalidBase fu.toText "cannot be a base")
        else Except.ok fu) = .ok fu
    rw [if_neg (by simp [hcb])]
  have hjoin : fu.join "/" = .ok ⟨fu.scheme, fu.host, fu.port, [""], none, none, false⟩ := by
    rw [join_of_parse fu "/" (.rootRel [""] none none) rfl]
    exact joinRef_rootRel_ok fu [""] none none (by simp [hcb])
  have hmr : ∃ s, makeRelative ⟨fu.scheme, fu.host, fu.port, [""], none, none, false⟩ fu
      = some s := by
    unfold makeRelative
    rw [if_neg (by simp [hcb])]
    exact ⟨_, rfl⟩
  obtain ⟨s, hms⟩ := hmr
  have hsplit : splitUrlOriginAndPath fu
      = some (⟨fu.scheme, fu.host, fu.port, [""], none, none, false⟩, s) := by
    unfold splitUrlOriginAndPath
    rw [hjoin]
    show (match makeRelative ⟨fu.scheme, fu.host, fu.port, [""], none, none, false⟩ fu with
      | none => (none : Option (Url × String))
      | some subpath => some (⟨fu.scheme, fu.host, fu.port, [""], none, none, false⟩, subpath))
      = some (⟨fu.scheme, fu.host, fu.port, [""], none, none, false⟩, s)
    rw [hms]
  have hfrom : fromSourceUrl fu
      = .Full ⟨fu.scheme, fu.host, fu.port, [""], none, none, false⟩ s := by
    unfold fromSourceUrl
    rw [if_neg hs, hsplit]
  refine ⟨⟨fu.scheme, fu.host, fu.port, [""], none, none, false⟩, s, ?_, rfl⟩
  unfold prepareSourceBaseInfo
  show (match (match (Base.Remote fu).toUrl with
      | .error e => (.error e : Except ErrorKind SourceBaseInfo)
      | .ok fallbackUrl => .ok (fromSourceUrl fallbackUrl)) with
    | .error e => (.error e : Except ErrorKind (SourceBaseInfo × UrlMappings))
    | .ok fallback =>
      .ok ((SourceBaseInfo.NoRoot ⟨"file", some "", none, p, none, none,
          false⟩).orFallback fallback, (⟨[]⟩ : UrlMappings)))
    = .ok (.Full ⟨fu.scheme, fu.host, fu.port, [""], none, none, false⟩ s, ⟨[]⟩)
  rw [htoUrl]
  show Except.ok ((SourceBaseInfo.NoRoot ⟨"file", some "", none, p, none, none,
      false⟩).orFallback (fromSourceUrl fu), (⟨[]⟩ : UrlMappings))
    = .ok (.Full ⟨fu.scheme, fu.host, fu.port, [""], none, none, false⟩ s, ⟨[]⟩)
  rw [hfrom]
  rfl

/-- Witness for C6's amended law at an `https:` fallback base. -/
theorem C6_witness :
    ∃ origin sub,
      prepareSourceBaseInfo (.FsPath ["a", "page.html"]) none
          (some (.Remote ⟨"https", some "fb.com", none, ["docs", ""], none, none, false⟩))
        = .ok (.Full origin sub, ⟨[]⟩) ∧
      (SourceBaseInfo.Full origin sub).supportsRootRelative = true :=
  C6_fallback_override_nonfile ["a", "page.html"]
    ⟨"https", some "fb.com", none, ["docs", ""], none, none, false⟩ (by decide) rfl

theorem isRootRelative_of_shape (text : String) (rest : List Char)
    (htr : trimStartChars text.data = '/' :: rest) (hh : rest.head? ≠ some '/') :
    isRootRelative text = true := by
  unfold isRootRelative
  rw [htr]
  split
  · rename_i heq
    exfalso
    injection heq with h1 h2
    rw [h2] at hh
    exact hh rfl
  · rfl
  · rename_i hn1 hn2
    exact absurd rfl (hn2 rest)

theorem trimStartChars_idem (l : List Char) :
    trimStartChars (trimStartChars l) = trimStartChars l := by
  unfold trimStartChars
  exact List.dropWhile_idempotent wsChar l

theorem parseRefChars_trimStart (l : List Char) :
    parseRefChars (trimStartChars l) = parseRefChars l := by
  unfold parseRefChars
  rw [show trimChars (trimStartChars l) = trimChars l from by
    unfold trimChars
    rw [trimStartChars_idem]]

theorem urlParse_trimStart (t : String) :
    urlParse (String.mk (trimStartChars t.data)) = urlParse t := by
  unfold urlParse
  rw [show (String.mk (trimStartChars t.data)).data = trimStartChars t.data from rfl,
    parseRefChars_trimStart]

theorem isRootRelative_trimStart (t : String) :
    isRootRelative (String.mk (trimStartChars t.data)) = isRootRelative t := by
  unfold isRootRelative
  rw [show trimStartChars ((String.mk (trimStartChars t.data)).data)
    = trimStartChars t.data from trimStartChars_idem t.data]

theorem parseUrlText_NoRoot_ok (b : Url) (t : String) (u : Url)
    (hu : urlParse t = .ok u) :
    parseUrlText (.NoRoot b) t none = .ok u := by
  unfold parseUrlText uriTryFrom
  rw [hu]

theorem parseUrlText_NoRoot_notRoot (b : Url) (t : String) (pe : ParseError)
    (hu : urlParse t = .error pe) (hroot : isRootRelative t = false) :
    parseUrlText (.NoRoot b) t none
      = (match b.joinRooted [t] with
        | .ok u => .ok u
        | .error pe2 => .error (.ParseUrl pe2 t)) := by
  unfold parseUrlText uriTryFrom
  rw [hu]
  show (match (if isRootRelative t = true
      then (Except.error (ErrorKind.InvalidBaseJoin t) : Except ErrorKind Url)
      else match b.joinRooted [t] with
        | .ok u => .ok u
        | .error pe2 => .error (.ParseUrl pe2 t)) with
    | .error e => (.error e : Except ErrorKind Url)
    | .ok url => .ok url) = _
  rw [hroot]
  cases hjr : b.joinRooted [t] with
  | ok u => rfl
  | error pe2 => rfl

theorem parseUrlText_NoRoot_ibj_iff (b : Url) (t : String) :
    parseUrlText (.NoRoot b) t none = .error (.InvalidBaseJoin t) ↔
      isRootRelative t = true := by
  constructor
  · intro h
    cases hu : urlParse t with
    | ok u =>
      rw [parseUrlText_NoRoot_ok b t u hu] at h
      exact absurd h (by simp)
    | error pe =>
      cases hval : isRootRelative t with
      | true => rfl
      | false =>
        exfalso
        rw [parseUrlText_NoRoot_notRoot b t pe hu hval] at h
        cases hjr : b.joinRooted [t] with
        | ok u => rw [hjr] at h; exact absurd h (by simp)
        | error pe2 => rw [hjr] at h; simp at h
  · exact parseUrlText_NoRoot_rootRel b t

/-- C9: classification of link text as root-relative ignores leading ASCII
whitespace — `is_root_relative t` holds exactly when the
whitespace-stripped text starts with a single `/` and not `//` — and
consequently, under a `NoRoot` base, `parse_url_text` rejects text with
`InvalidBaseJoin` exactly when it rejects the stripped text that way. -/
theorem C9_rootRelative_ignores_leading_ws :
    (∀ t : String, isRootRelative t = true ↔
      ∃ rest, trimStartChars t.data = '/' :: rest ∧ rest.head? ≠ some '/') ∧
    (∀ (b : Url) (t : String),
      parseUrlText (.NoRoot b) t none = .error (.InvalidBaseJoin t) ↔
      parseUrlText (.NoRoot b) (String.mk (trimStartChars t.data)) none
        = .error (.InvalidBaseJoin (String.mk (trimStartChars t.data)))) := by
  constructor
  · intro t
    constructor
    · exact isRootRelative_shape t
    · rintro ⟨rest, htr, hh⟩
      exact isRootRelative_of_shape t rest htr hh
  · intro b t
    rw [parseUrlText_NoRoot_ibj_iff, parseUrlText_NoRoot_ibj_iff,
      isRootRelative_trimStart]

/-- Witness for C9's second law at `t = " /x"` (leading space). -/
theorem C9_witness :
    parseUrlText (.NoRoot ⟨"file", some "", none, ["root", ""], none, none, false⟩)
        " /x" none = .error (.InvalidBaseJoin " /x") ↔
      parseUrlText (.NoRoot ⟨"file", some "", none, ["root", ""], none, none, false⟩)
        (String.mk (trimStartChars (" /x" : String).data)) none
        = .error (.InvalidBaseJoin (String.mk (trimStartChars (" /x" : String).data))) :=
  C9_rootRelative_ignores_leading_ws.2
    ⟨"file", some "", none, ["root", ""], none, none, false⟩ " /x"

theorem prepare_fsPath_bare (p : List String) :
    prepareSourceBaseInfo (.FsPath p) none none
      = .ok (.NoRoot ⟨"file", some "", none, p, none, none, false⟩, ⟨[]⟩) := rfl

theorem prepare_fsPath_rooted (r init : List String) (last : String)
    (hplain : ∀ x ∈ init ++ [last], segOk x = true ∧ x ≠ "" ∧ x ≠ "." ∧ x ≠ "..") :
    prepareSourceBaseInfo (.FsPath (r ++ (init ++ [last]))) (some (r, none)) none
      = .ok (.Full ⟨"file", some "", none, r ++ [""], none, none, false⟩
            (joinWithSlash (init ++ [last])),
          ⟨[(⟨"file", some "", none, r ++ [""], none, none, false⟩,
             ⟨"file", some "", none, r ++ [""], none, none, false⟩)]⟩) := by
  have hmto : (⟨[(⟨"file", some "", none, r ++ [""], none, none, false⟩,
        ⟨"file", some "", none, r ++ [""], none, none, false⟩)]⟩ : UrlMappings).mapToOldUrl
        ⟨"file", some "", none, r ++ (init ++ [last]), none, none, false⟩
      = some (⟨"file", some "", none, r ++ [""], none, none, false⟩,
          joinWithSlash (init ++ [last])) := by
    unfold UrlMappings.mapToOldUrl
    simp only [List.findSome?_cons, strictly_under_root r init last hplain,
      Option.map_some']
  unfold prepareSourceBaseInfo
  show (match UrlMappings.new [(⟨"file", some "", none, r ++ [""], none, none, false⟩,
        ⟨"file", some "", none, r ++ [""], none, none, false⟩)] with
    | .error e => (.error e : Except ErrorKind (SourceBaseInfo × UrlMappings))
    | .ok mappings =>
      .ok ((match mappings.mapToOldUrl
            ⟨"file", some "", none, r ++ (init ++ [last]), none, none, false⟩ with
          | some (remote, subpath) => SourceBaseInfo.Full remote subpath
          | none => fromSourceUrl
              ⟨"file", some "", none, r ++ (init ++ [last]), none, none,
                false⟩).orFallback .None, mappings)) = _
  rw [UrlMappings_new_pair_self]
  show Except.ok ((match (⟨[(⟨"file", some "", none, r ++ [""], none, none, false⟩,
        ⟨"file", some "", none, r ++ [""], none, none, false⟩)]⟩ : UrlMappings).mapToOldUrl
          ⟨"file", some "", none, r ++ (init ++ [last]), none, none, false⟩ with
      | some (remote, subpath) => SourceBaseInfo.Full remote subpath
      | none => fromSourceUrl
          ⟨"file", some "", none, r ++ (init ++ [last]), none, none,
            false⟩).orFallback .None,
      (⟨[(⟨"file", some "", none, r ++ [""], none, none, false⟩,
        ⟨"file", some "", none, r ++ [""], none, none, false⟩)]⟩ : UrlMappings)) = _
  rw [hmto]
  rfl

/-- C3: a `SourceBaseInfo` prepared from a bare `file:` source with no
declared root is `NoRoot` and rejects every root-relative link text
(single leading `/`, not `//`) with `InvalidBaseJoin`; preparing the same
source with a declared root directory covering it yields a `Full` base
which accepts relative link text (including root-relative text) and
resolves it to a URL whose path stays under the declared root. -/
theorem C3_noRoot_rejects_full_resolves :
    (∀ p : List String, prepareSourceBaseInfo (.FsPath p) none none
        = .ok (.NoRoot ⟨"file", some "", none, p, none, none, false⟩, ⟨[]⟩)) ∧
    (∀ (u : Url) (text : String), isRootRelative text = true →
      parseUrlText (.NoRoot u) text none = .error (.InvalidBaseJoin text)) ∧
    (∀ (r init : List String) (last : String),
      (∀ x ∈ init ++ [last], segOk x = true ∧ x ≠ "" ∧ x ≠ "." ∧ x ≠ "..") →
      ∃ sub,
        prepareSourceBaseInfo (.FsPath (r ++ (init ++ [last]))) (some (r, none)) none
          = .ok (.Full ⟨"file", some "", none, r ++ [""], none, none, false⟩ sub,
              ⟨[(⟨"file", some "", none, r ++ [""], none, none, false⟩,
                 ⟨"file", some "", none, r ++ [""], none, none, false⟩)]⟩) ∧
        ∀ text : String, relInput text = true →
          ∃ w, parseUrlText
              (.Full ⟨"file", some "", none, r ++ [""], none, none, false⟩ sub)
              text none
            = .ok w ∧ r <+: w.path) := by
  refine ⟨prepare_fsPath_bare, parseUrlText_NoRoot_rootRel, ?_⟩
  intro r init last hplain
  refine ⟨joinWithSlash (init ++ [last]), prepare_fsPath_rooted r init last hplain, ?_⟩
  intro text htext
  have hsub : relInput (joinWithSlash (init ++ [last])) = true := by
    apply relInput_joinWithSlash
    · simp
    · exact List.all_eq_true.mpr fun x hx => (hplain x hx).1
    · cases init with
      | nil =>
        intro hcon
        simp only [List.nil_append, List.head?, Option.some.injEq] at hcon
        exact (hplain last (by simp)).2.1 hcon
      | cons a as =>
        intro hcon
        simp only [List.cons_append, List.head?, Option.some.injEq] at hcon
        exact (hplain a (by simp)).2.1 hcon
  obtain ⟨w, hw, h2, h3, h4, h5⟩ := parseUrlText_Full_ok
    ⟨"file", some "", none, r ++ [""], none, none, false⟩
    (joinWithSlash (init ++ [last])) text rfl rfl hsub htext
  refine ⟨w, hw, ?_⟩
  have hdl : (⟨"file", some "", none, r ++ [""], none, none,
      false⟩ : Url).path.dropLast = r := by
    show (r ++ [""]).dropLast = r
    exact List.dropLast_concat
  rw [hdl] at h5
  exact h5

/-- Witness for C3 at the `NoRoot` base `file:///root/index.html` with
text `/x`, and at the declared root `["r"]` with source file
`r/page.html` and the root-relative text `/x`. -/
theorem C3_witness :
    parseUrlText
        (.NoRoot ⟨"file", some "", none, ["root", "index.html"], none, none, false⟩)
        "/x" none
      = .error (.InvalidBaseJoin "/x") ∧
    ∃ sub,
      prepareSourceBaseInfo (.FsPath (["r"] ++ ([] ++ ["page.html"])))
          (some (["r"], none)) none
        = .ok (.Full ⟨"file", some "", none, ["r"] ++ [""], none, none, false⟩ sub,
            ⟨[(⟨"file", some "", none, ["r"] ++ [""], none, none, false⟩,
               ⟨"file", some "", none, ["r"] ++ [""], none, none, false⟩)]⟩) ∧
      ∀ text : String, relInput text = true →
        ∃ w, parseUrlText
            (.Full ⟨"file", some "", none, ["r"] ++ [""], none, none, false⟩ sub)
            text none
          = .ok w ∧ ["r"] <+: w.path :=
  ⟨C3_noRoot_rejects_full_resolves.2.1
      ⟨"file", some "", none, ["root", "index.html"], none, none, false⟩ "/x" (by decide),
    C3_noRoot_rejects_full_resolves.2.2 ["r"] [] "page.html" (by decide)⟩

/-- Witness for C7's characterization at a single equal-sided pair. -/
theorem C7_witness :
    UrlMappings.new [(⟨"https", some "h", none, [""], none, none, false⟩,
        ⟨"https", some "h", none, [""], none, none, false⟩)]
      = .ok ⟨[(⟨"https", some "h", none, [""], none, none, false⟩,
          ⟨"https", some "h", none, [""], none, none, false⟩)]⟩ :=
  (C7_new_within_pair [] ⟨"https", some "h", none, [""], none, none, false⟩).2.1
